import Mathlib

/-!
Verification of the dynamic reverse proxy's load-balancing and middleware
layer against its design specification.  The Go sources are shallowly
embedded: machine integers become `Int`/`Nat` (Go's `%` on integers is
`Int.tmod`), byte slices become `List Nat`, strings become `List Char`,
fallible functions return `Option`/`Except`, and the unbounded selection
loop of the balancer takes explicit fuel.
-/

set_option maxHeartbeats 1000000
set_option maxRecDepth 4000

instance {ε α : Type} [DecidableEq ε] [DecidableEq α] : DecidableEq (Except ε α)
  | .ok a, .ok b =>
    if h : a = b then .isTrue (by rw [h]) else .isFalse (fun hc => by cases hc; exact h rfl)
  | .error a, .error b =>
    if h : a = b then .isTrue (by rw [h]) else .isFalse (fun hc => by cases hc; exact h rfl)
  | .ok _, .error _ => .isFalse (fun hc => Except.noConfusion hc)
  | .error _, .ok _ => .isFalse (fun hc => Except.noConfusion hc)

namespace Oxy

/-- Shallow model of `net/url.URL` as used by the balancer: `sameURL` in
`rr.go` compares only `Path`, `Host` and `Scheme`, so the model keeps
exactly those three fields. -/
structure URL where
  scheme : List Char
  host : List Char
  path : List Char
deriving DecidableEq, Inhabited

/-- `sameURL` from `rr.go`: componentwise comparison of path, host, scheme. -/
def sameURL (a b : URL) : Bool :=
  a.path == b.path && a.host == b.host && a.scheme == b.scheme

/-- The `server` struct of `rr.go`: a URL plus a relative weight.  Weights
are nonnegative (`Weight` rejects `w < 0`, and the insert path defaults a
zero weight), so the field is a `Nat`. -/
structure Server where
  url : URL
  weight : Nat
deriving DecidableEq, Inhabited

/-- `defaultWeight` from `rr.go`. -/
def defaultWeight : Nat := 1

/-- The algorithmic state of the `RoundRobin` struct in `rr.go`; the
handler, error-handler and mutex fields carry no selection state and are
dropped.  `index` starts from `-1`. -/
structure RoundRobin where
  index : Int
  servers : List Server
  currentWeight : Int
deriving DecidableEq

/-- `New` from `rr.go`: index `-1`, empty server list, current weight 0. -/
def New : RoundRobin := { index := -1, servers := [], currentWeight := 0 }

/-- `maxWeight` from `rr.go`: fold starting from `-1`. -/
def maxWeight (ss : List Server) : Int :=
  ss.foldl (fun m s => if (s.weight : Int) > m then (s.weight : Int) else m) (-1)

/-- `weightGcd` from `rr.go`: fold starting from the sentinel `-1`.  On
nonnegative inputs Go's Euclidean loop `gcd(a, b)` computes `Nat.gcd`, and
the accumulator is a weight (hence nonnegative) after the first step. -/
def weightGcd (ss : List Server) : Int :=
  ss.foldl (fun d s => if d = -1 then (s.weight : Int) else (Nat.gcd d.toNat s.weight : Nat)) (-1)

/-- Result of the selection loop of `nextServer` (`rr.go`): a selected
index together with the final `currentWeight`, the "all servers have 0
weight" error (the spec's `NoAvailableEndpoints`; the Go code leaves the
state at index 0 / weight 0 there), or exhausted fuel (the Go loop would
still be running). -/
inductive LoopOut
  | ok (sel : Nat) (cw : Int)
  | allZero
  | fuelOut
deriving DecidableEq

/-- The `for` loop of `nextServer` in `rr.go`, over the list of server
weights `ws`.  Each iteration advances the cursor modulo the pool size
(`Int.tmod` is Go's `%`), on a wrap to 0 subtracts the gcd from the
current weight and resets it to the maximum when it drops to `≤ 0`
(failing when that maximum is 0), and returns the cursor position as soon
as the weight there is `≥` the current weight. -/
def rrLoop (ws : List Nat) (g mx : Int) : Nat → Int → Int → LoopOut
  | 0, _, _ => .fuelOut
  | fuel+1, index, cw =>
    let index' : Int := (index + 1).tmod (ws.length : Int)
    match (if index' = 0 then
             (if cw - g ≤ 0 then (if mx = 0 then none else some mx) else some (cw - g))
           else some cw : Option Int) with
    | none => .allZero
    | some cw' =>
      if cw' ≤ (ws.getD index'.toNat 0 : Int) then .ok index'.toNat cw'
      else rrLoop ws g mx fuel index' cw'

/-- Selection errors of `nextServer` (`rr.go`); the spec names them
`EmptyPool` ("no servers in the pool") and `NoAvailableEndpoints`
("all servers have 0 weight"). -/
inductive RRError
  | emptyPool
  | noAvailableEndpoints
deriving DecidableEq

/-- `nextServer` from `rr.go`, returning the outcome together with the
updated pool (the Go method mutates the receiver's `index` and
`currentWeight`; on the all-zero error they are left at 0/0).  `none`
means the given fuel did not suffice. -/
def nextServer (r : RoundRobin) (fuel : Nat) : Option (Except RRError Server × RoundRobin) :=
  if r.servers.length = 0 then some (.error .emptyPool, r)
  else
    match rrLoop (r.servers.map Server.weight) (weightGcd r.servers) (maxWeight r.servers)
        fuel r.index r.currentWeight with
    | .fuelOut => none
    | .allZero => some (.error .noAvailableEndpoints, { r with index := 0, currentWeight := 0 })
    | .ok sel cw =>
      some (.ok (r.servers.getD sel default), { r with index := (sel : Int), currentWeight := cw })

/-- `resetIterator` from `rr.go` (also `resetState`): cursor back to `-1`,
weight counter to 0. -/
def resetIterator (r : RoundRobin) : RoundRobin :=
  { r with index := -1, currentWeight := 0 }

/-- `RemoveServer` from `rr.go`: locate by `sameURL`, remove, reset the
iterator; error when the URL is not present. -/
def RemoveServer (r : RoundRobin) (u : URL) : Except (List Char) RoundRobin :=
  match r.servers.findIdx? (fun s => sameURL u s.url) with
  | none => .error "server not found".toList
  | some i => .ok (resetIterator { r with servers := r.servers.eraseIdx i })

/-- `UpsertServer` from `rr.go`, with the only `ServerOption` in the
repository (`Weight w`) modelled as an optional integer argument;
`Weight` rejects negative values.  On the update path the weight is
applied as given (a zero stays zero); on the insert path a zero weight is
replaced by `defaultWeight`.  Both paths reset the iterator. -/
def UpsertServer (r : RoundRobin) (u : URL) (w? : Option Int) : Except (List Char) RoundRobin :=
  match r.servers.findIdx? (fun s => sameURL u s.url) with
  | some i =>
    match w? with
    | some w =>
      if w < 0 then .error "Weight should be >= 0".toList
      else .ok (resetIterator
        { r with servers := r.servers.set i { (r.servers.getD i default) with weight := w.toNat } })
    | none => .ok (resetIterator r)
  | none =>
    match w? with
    | some w =>
      if w < 0 then .error "Weight should be >= 0".toList
      else
        .ok (resetIterator { r with servers :=
          r.servers ++ [{ url := u, weight := if w.toNat = 0 then defaultWeight else w.toNat }] })
    | none =>
      .ok (resetIterator { r with servers := r.servers ++ [{ url := u, weight := defaultWeight }] })

/-- `Servers` from `rr.go`: the list of server URLs. -/
def Servers (r : RoundRobin) : List URL := r.servers.map Server.url

/-- `isBackendAlive` from `stickysessions.go`. -/
def isBackendAlive (needle : URL) (haystack : List URL) : Bool :=
  if haystack.length = 0 then false
  else haystack.any (fun s => sameURL needle s)

/-- `GetBackend` from `stickysessions.go`.  The affinity cookie is modelled
by its parsed value: `StickBackend` writes `backend.String()` and
`GetBackend` re-parses it with `url.Parse`, which round-trips, so the
request carries an `Option URL` (no cookie, or the URL stored in it).
Returns the backend and whether the cookie named a live backend. -/
def GetBackend (cookie : Option URL) (servers : List URL) : Option URL × Bool :=
  match cookie with
  | none => (none, false)
  | some u => if isBackendAlive u servers then (some u, true) else (none, false)

/-- Outcome of one `RoundRobin.ServeHTTP` call (`rr.go`) with sticky
sessions enabled: the URL the downstream handler was invoked with (`none`
when the error handler took over), the value `StickBackend` set on the
response cookie (`none` when no cookie was written), and the pool state
afterwards. -/
structure StickyServeOut where
  dispatched : Option URL
  setCookie : Option URL
  pool : RoundRobin
deriving DecidableEq

/-- `RoundRobin.ServeHTTP` from `rr.go` with a sticky session configured:
consult `GetBackend`; when the cookie names a live backend, dispatch to it
("stuck") without touching the rotation; otherwise run `nextServer`,
stick the chosen backend on the response, and dispatch to it. -/
def ServeHTTPSticky (r : RoundRobin) (cookie : Option URL) (fuel : Nat) :
    Option StickyServeOut :=
  match GetBackend cookie (Servers r) with
  | (cu, true) => some { dispatched := cu, setCookie := none, pool := r }
  | (_, false) =>
    match nextServer r fuel with
    | none => none
    | some (.error _, r') => some { dispatched := none, setCookie := none, pool := r' }
    | some (.ok srv, r') =>
      some { dispatched := some srv.url, setCookie := some srv.url, pool := r' }

end Oxy

namespace K8s

/-- Capacity of the aggregation event channel created by `WatchAll`
(`client.go`): `make(chan interface{}, 1)`. -/
def eventChCapacity : Nat := 1

/-- `eventHandlerFunc` from `client.go`: a non-blocking send on the event
channel (`select` with a `default` branch), dropping the event when the
buffer is full.  The buffered channel is modelled as the list of pending
elements, at most `eventChCapacity` long. -/
def eventHandlerFunc (events : List α) (obj : α) : List α :=
  if events.length < eventChCapacity then events ++ [obj] else events

end K8s

namespace Mw

/-! ### Path-prefix stripper (`StripPrefix.ServeHTTP`) -/

/-- `unicode.IsSpace`, the predicate `strings.TrimSpace` trims by. -/
def isGoSpace (c : Char) : Bool :=
  c.toNat = 9 || c.toNat = 10 || c.toNat = 11 || c.toNat = 12 || c.toNat = 13 ||
  c.toNat = 32 || c.toNat = 0x85 || c.toNat = 0xA0 || c.toNat = 0x1680 ||
  (0x2000 ≤ c.toNat && c.toNat ≤ 0x200A) || c.toNat = 0x2028 || c.toNat = 0x2029 ||
  c.toNat = 0x202F || c.toNat = 0x205F || c.toNat = 0x3000

/-- `strings.TrimSpace`: drop Unicode white space from both ends. -/
def trimSpace (s : List Char) : List Char :=
  ((s.dropWhile isGoSpace).reverse.dropWhile isGoSpace).reverse

/-- `strings.HasPrefix`. -/
def hasPfx (s pre : List Char) : Bool := pre.isPrefixOf s

/-- `strings.HasSuffix`. -/
def hasSfx (s suf : List Char) : Bool := suf.isSuffixOf s

/-- `strings.TrimPrefix`. -/
def trimPfx (s pre : List Char) : List Char :=
  if hasPfx s pre then s.drop pre.length else s

/-- Outcome of `StripPrefix.ServeHTTP`: `forwarded path header` means
`serveRequest` invoked the downstream handler with `r.URL.Path = path` and
the `X-Forwarded-Prefix` header set to `header`; `notFound` means
`http.NotFound` wrote a 404 and the downstream handler never ran. -/
inductive StripResult
  | forwarded (path : List Char) (header : List Char)
  | notFound
deriving DecidableEq

/-- `StripPrefix.ServeHTTP`: try the configured prefixes in order.  Each
candidate is trimmed of surrounding white space; an exact match rewrites
the path to `/`; otherwise the candidate (with a `/` appended unless it
already ends in one) is stripped off the front of the path, and — only
when the remainder does not itself start with `/` — the path becomes
`/` + remainder.  On a match the downstream handler runs with the trimmed
candidate recorded in the forwarding header; otherwise 404. -/
def stripServe : List (List Char) → List Char → StripResult
  | [], _ => .notFound
  | pre :: rest, path =>
    let orgPfx := trimSpace pre
    if orgPfx = path then .forwarded ['/'] orgPfx
    else
      let pfx := if hasSfx orgPfx ['/'] then orgPfx else orgPfx ++ ['/']
      let p := trimPfx path pfx
      if p.length < path.length then
        .forwarded (if hasPfx p ['/'] then path else '/' :: p) orgPfx
      else stripServe rest path

/-! ### IP allow-list middleware (`ip_witelister.go`) and its slice of
`net` (`ip.go`, `parse.go`, `ipsock.go`, go1.9 vintage) -/

/-- `big` from `net/parse.go`: the cap of the decimal/hex converters. -/
def big : Nat := 0xFFFFFF

def isDigit (c : Char) : Bool := '0' ≤ c && c ≤ '9'

/-- Loop of `dtoi` (`net/parse.go`): accumulate decimal digits; on
reaching `big` fail at the current index. -/
def dtoiAux : List Char → Nat → Nat → Nat × Nat × Bool
  | c :: s, n, i =>
    if isDigit c then
      let n' := n * 10 + (c.toNat - '0'.toNat)
      if n' ≥ big then (0, i, false)
      else dtoiAux s n' (i + 1)
    else (n, i, true)
  | [], n, i => (n, i, true)

/-- `dtoi` from `net/parse.go`: parse a decimal number at the front of
`s`; returns value, characters consumed, success (failure when no digit or
the value reaches `big`). -/
def dtoi (s : List Char) : Nat × Nat × Bool :=
  match dtoiAux s 0 0 with
  | (n, i, ok) => if i = 0 then (0, 0, false) else (n, i, ok)

/-- Hexadecimal digit value, as accepted by `xtoi` (`net/parse.go`). -/
def hexVal (c : Char) : Option Nat :=
  if '0' ≤ c ∧ c ≤ '9' then
    some (c.toNat - '0'.toNat)
  else if 'a' ≤ c ∧ c ≤ 'f' then
    some (10 + (c.toNat - 'a'.toNat))
  else if 'A' ≤ c ∧ c ≤ 'F' then
    some (10 + (c.toNat - 'A'.toNat))
  else
    none

/-- Loop of `xtoi` (`net/parse.go`). -/
def xtoiAux : List Char → Nat → Nat → Nat × Nat × Bool
  | c :: s, n, i =>
    (match hexVal c with
     | some d =>
       let n' := n * 16 + d
       if n' ≥ big then (0, i, false)
       else xtoiAux s n' (i + 1)
     | none => (n, i, true))
  | [], n, i => (n, i, true)

/-- `xtoi` from `net/parse.go`: hexadecimal analogue of `dtoi`. -/
def xtoi (s : List Char) : Nat × Nat × Bool :=
  match xtoiAux s 0 0 with
  | (n, i, ok) => if i = 0 then (0, 0, false) else (n, i, ok)

/-- `v4InV6Prefix` from `net/ip.go`. -/
def v4InV6Pfx : List Nat := [0, 0, 0, 0, 0, 0, 0, 0, 0, 0, 0xff, 0xff]

/-- One dotted-decimal field of `parseIPv4`: a `dtoi` number `≤ 0xFF`. -/
def parseV4Field (s : List Char) : Option (Nat × List Char) :=
  match dtoi s with
  | (n, c, ok) => if ok && n ≤ 0xFF then some (n, s.drop c) else none

/-- The last three `.`-separated fields of `parseIPv4`. -/
def parseIPv4Rest : Nat → List Char → Option (List Nat × List Char)
  | 0, s => some ([], s)
  | k+1, s =>
    match s with
    | '.' :: s' =>
      match parseV4Field s' with
      | none => none
      | some (n, s'') =>
        match parseIPv4Rest k s'' with
        | none => none
        | some (ns, s3) => some (n :: ns, s3)
    | _ => none

/-- `parseIPv4` from `net/ip.go`: four dotted-decimal fields `0..255`
consuming the whole string; the result is the 16-byte IPv4-in-IPv6 form
produced by `IPv4()`. -/
def parseIPv4 (s : List Char) : Option (List Nat) :=
  match parseV4Field s with
  | none => none
  | some (n0, s1) =>
    match parseIPv4Rest 3 s1 with
    | none => none
    | some (rest, s2) => if s2 = [] then some (v4InV6Pfx ++ n0 :: rest) else none

/-- Completion of `parseIPv6` after its main loop: the string must be
consumed; a short address needs an ellipsis, which expands to zero bytes
at its recorded position; a full-length address must not have one. -/
def finishV6 (acc : List Nat) (ell : Option Nat) (rest : List Char) : Option (List Nat) :=
  if rest ≠ [] then none
  else if acc.length < 16 then
    match ell with
    | none => none
    | some e => some (acc.take e ++ List.replicate (16 - acc.length) 0 ++ acc.drop e)
  else if ell.isSome then none
  else some acc

/-- The main loop of `parseIPv6` (`net/ip.go`): parse 16-bit hex groups
separated by `:`, recording at most one `::` ellipsis position and
switching to `parseIPv4` for a trailing dotted-quad.  Returns the bytes
accumulated, the ellipsis position, and the unconsumed remainder.  Each
iteration appends 2 (or 4) bytes and the loop runs while fewer than 16
bytes are present, so fuel 9 never runs out. -/
def parseIPv6Loop : Nat → List Char → List Nat → Option Nat → Option (List Nat × Option Nat × List Char)
  | 0, _, _, _ => none
  | fuel+1, s, acc, ell =>
    if acc.length < 16 then
      match xtoi s with
      | (n, c, ok) =>
        if !ok || n > 0xFFFF then none
        else if c < s.length && s.getD c ' ' = '.' then
          (if (ell.isNone && acc.length ≠ 12) || acc.length + 4 > 16 then none
           else match parseIPv4 s with
             | none => none
             | some ip4 => some (acc ++ ip4.drop 12, ell, []))
        else
          let acc' := acc ++ [(n >>> 8) % 256, n % 256]
          match s.drop c with
          | [] => some (acc', ell, [])
          | ':' :: s1 =>
            if s1 = [] then none
            else
              match s1 with
              | ':' :: s2 =>
                if ell.isSome then none
                else if s2 = [] then some (acc', some acc'.length, [])
                else parseIPv6Loop fuel s2 acc' (some acc'.length)
              | _ => parseIPv6Loop fuel s1 acc' ell
          | _ => none
    else some (acc, ell, s)

/-- `parseIPv6` from `net/ip.go` (zones are not used by this repository):
optional leading `::`, then the hex-group loop, then `finishV6`. -/
def parseIPv6 (s : List Char) : Option (List Nat) :=
  match s with
  | ':' :: ':' :: s1 =>
    if s1 = [] then some (List.replicate 16 0)
    else
      match parseIPv6Loop 9 s1 [] (some 0) with
      | none => none
      | some (acc, ell, rest) => finishV6 acc ell rest
  | _ =>
    match parseIPv6Loop 9 s [] none with
    | none => none
    | some (acc, ell, rest) => finishV6 acc ell rest

/-- The classifying scan of `ParseIP` (`net/ip.go`): the first `.` or `:`
decides the family. -/
def parseIPClassify : List Char → Option Bool
  | [] => none
  | c :: s => if c = '.' then some true else if c = ':' then some false else parseIPClassify s

/-- `ParseIP` from `net/ip.go`. -/
def ParseIP (s : List Char) : Option (List Nat) :=
  match parseIPClassify s with
  | some true => parseIPv4 s
  | some false => parseIPv6 s
  | none => none

/-- The byte-building loop of `CIDRMask` (`net/ip.go`): 8 ones per byte
while available, then `^byte(0xff >> n)` for the partial byte. -/
def maskBytes : Nat → Nat → List Nat
  | _, 0 => []
  | ones, l+1 =>
    if ones ≥ 8 then 0xff :: maskBytes (ones - 8) l
    else (0xff ^^^ (0xff >>> ones)) :: maskBytes 0 l

/-- `CIDRMask` from `net/ip.go`: only 32- and 128-bit masks exist, and the
prefix length may not exceed the bit size. -/
def CIDRMask (ones bits : Nat) : List Nat :=
  if bits ≠ 32 && bits ≠ 128 then []
  else if ones > bits then []
  else maskBytes ones (bits / 8)

/-- `IP.To4` from `net/ip.go`. -/
def To4 (ip : List Nat) : Option (List Nat) :=
  if ip.length = 4 then some ip
  else if ip.length = 16 && (ip.take 10).all (· = 0) &&
      ip.getD 10 0 = 0xff && ip.getD 11 0 = 0xff then
    some (ip.drop 12)
  else none

/-- `IP.Mask` from `net/ip.go`: align a 16-byte mask to a 4-byte address
(and conversely a 4-byte mask to a mapped 16-byte address), then AND
bytewise; a remaining length mismatch yields the nil IP. -/
def maskIP (ip mask : List Nat) : List Nat :=
  let mask' := if mask.length = 16 && ip.length = 4 && (mask.take 12).all (· = 0xff)
               then mask.drop 12 else mask
  let ip' := if mask'.length = 4 && ip.length = 16 && ip.take 12 = v4InV6Pfx
             then ip.drop 12 else ip
  if ip'.length ≠ mask'.length then []
  else List.zipWith (fun a b => a &&& b) ip' mask'

/-- One network of the allow list: `net.IPNet`. -/
structure IPNet where
  ip : List Nat
  mask : List Nat
deriving DecidableEq

/-- First index of `/` in a CIDR literal, splitting it into address and
mask parts (`byteIndex` in `ParseCIDR`). -/
def splitSlash : List Char → Option (List Char × List Char)
  | [] => none
  | c :: s =>
    if c = '/' then some ([], s)
    else match splitSlash s with
         | none => none
         | some (a, b) => some (c :: a, b)

/-- `ParseCIDR` from `net/ip.go`: split at the first `/`, parse the
address (IPv4 first, IPv6 second), parse the whole mask part as a decimal
prefix length bounded by the family's bit size, and return the address
together with the masked network.  On failure Go returns
`&ParseError{Type: "CIDR address", Text: s}`, whose message is
"invalid CIDR address: " followed by the literal. -/
def ParseCIDR (s : List Char) : Option (List Nat × IPNet) :=
  match splitSlash s with
  | none => none
  | some (addr, maskStr) =>
    let parsed : Option (List Nat × Nat) :=
      match parseIPv4 addr with
      | some ip => some (ip, 4)
      | none =>
        match parseIPv6 addr with
        | some ip => some (ip, 16)
        | none => none
    match parsed with
    | none => none
    | some (ip, iplen) =>
      match dtoi maskStr with
      | (n, i, ok) =>
        if !ok || i ≠ maskStr.length || n > 8 * iplen then none
        else
          let m := CIDRMask n (8 * iplen)
          some (ip, ⟨maskIP ip m, m⟩)

/-- `networkNumberAndMask` from `net/ip.go`: canonicalise the network
address via `To4` (requiring a 16-byte form otherwise) and align the mask
length to it. -/
def networkNumberAndMask (n : IPNet) : List Nat × List Nat :=
  match To4 n.ip with
  | some ip4 =>
    if n.mask.length = 4 then (ip4, n.mask)
    else if n.mask.length = 16 then (ip4, n.mask.drop 12)
    else ([], [])
  | none =>
    if n.ip.length ≠ 16 then ([], [])
    else if n.mask.length = 4 then ([], [])
    else if n.mask.length = 16 then (n.ip, n.mask)
    else ([], [])

/-- The comparison loop of `IPNet.Contains`: bytewise equality under the
mask, over lists of equal length. -/
def maskedEq : List Nat → List Nat → List Nat → Bool
  | a :: as, b :: bs, m :: ms => (a &&& m == b &&& m) && maskedEq as bs ms
  | [], [], [] => true
  | _, _, _ => false

/-- `IPNet.Contains` from `net/ip.go`. -/
def Contains (n : IPNet) (ip : List Nat) : Bool :=
  match networkNumberAndMask n with
  | (nn, m) =>
    let ip' := match To4 ip with
               | some x => x
               | none => ip
    ip'.length = nn.length && maskedEq nn ip' m

/-- First index of a character. -/
def firstIdx (c : Char) : List Char → Option Nat
  | [] => none
  | x :: s => if x = c then some 0 else (firstIdx c s).map (· + 1)

/-- Last index of a character. -/
def lastIdx (c : Char) (s : List Char) : Option Nat :=
  (firstIdx c s.reverse).map (fun j => s.length - 1 - j)

/-- `SplitHostPort` from `net/ipsock.go` (go1.9): split at the last `:`;
a host starting with `[` must be the bracketed form `[host]:port`; an
unbracketed host may not contain `:` or `%`, and stray brackets are
rejected.  All error returns collapse to `none` (the caller only checks
for failure). -/
def SplitHostPort (s : List Char) : Option (List Char × List Char) :=
  match lastIdx ':' s with
  | none => none
  | some i =>
    if s.getD 0 ' ' = '[' then
      match firstIdx ']' s with
      | none => none
      | some e =>
        if e + 1 ≠ i then none
        else if (s.drop 1).contains '[' || (s.drop (e + 1)).contains ']' then none
        else some ((s.take e).drop 1, s.drop (i + 1))
    else
      let host := s.take i
      if host.contains ':' || host.contains '%' then none
      else if s.contains '[' || s.contains ']' then none
      else some (host, s.drop (i + 1))

/-- `ipFromRemoteAddr` from `ip_witelister.go`: host part of the
transport-layer address, then `net.ParseIP`; `none` models both error
returns (split failure and unparseable IP). -/
def ipFromRemoteAddr (addr : List Char) : Option (List Nat) :=
  match SplitHostPort addr with
  | none => none
  | some (host, _) => ParseIP host

/-- Construction errors of `NewIPWhitelister` (`ip_witelister.go`):
"Error creating IpWhitelister: no whitelists provided", and the CIDR parse
error carrying its formatted message. -/
inductive WlError
  | noWhitelists
  | cidrError (msg : List Char)
deriving DecidableEq

/-- The message of `fmt.Errorf("Error PArsing CIDR Whitelist %s: %s",
whitelist, err)`: the first verb prints the nil `*net.IPNet` as `<nil>`,
the second the `net.ParseError` text, which ends in the offending
literal. -/
def parseErrMsg (s : List Char) : List Char :=
  "Error PArsing CIDR Whitelist <nil>: invalid CIDR address: ".toList ++ s

/-- The CIDR-parsing loop of `NewIPWhitelister`: stops at the first
literal `ParseCIDR` rejects. -/
def parseWhitelists : List (List Char) → Except WlError (List IPNet)
  | [] => .ok []
  | s :: rest =>
    match ParseCIDR s with
    | none => .error (.cidrError (parseErrMsg s))
    | some (_, net) =>
      match parseWhitelists rest with
      | .error e => .error e
      | .ok nets => .ok (net :: nets)

/-- `NewIPWhitelister` from `ip_witelister.go`: reject an empty (or nil)
list, then parse every literal. -/
def NewIPWhitelister (strs : List (List Char)) : Except WlError (List IPNet) :=
  if strs.length < 1 then .error .noWhitelists
  else parseWhitelists strs

/-- Observable effect of one run of the allow-list handler closure:
status codes written (`reject` writes one 403), whether
`next.ServeHTTP` ran, and whether Go dereferenced the nil `remoteIP`
(a panic at `whitelist.Contains(*remoteIP)`). -/
structure HandlerResult where
  writes : List Nat
  nextInvoked : Bool
  nilDeref : Bool
deriving DecidableEq

/-- The request-time closure built by `NewIPWhitelister`
(`ip_witelister.go`).  When the remote address fails to parse the code
calls `reject` but does not return; the subsequent loop then evaluates
`whitelist.Contains(*remoteIP)` on the nil pointer — with a nonempty allow
list this dereferences nil (`nilDeref`), and with an empty list the loop
body never runs and `reject` is reached a second time. -/
def whitelistHandler (whitelists : List IPNet) (remoteIP : Option (List Nat)) : HandlerResult :=
  match remoteIP with
  | none =>
    match whitelists with
    | [] => { writes := [403, 403], nextInvoked := false, nilDeref := false }
    | _ :: _ => { writes := [403], nextInvoked := false, nilDeref := true }
  | some ip =>
    match whitelists.find? (fun w => Contains w ip) with
    | some _ => { writes := [], nextInvoked := true, nilDeref := false }
    | none => { writes := [403], nextInvoked := false, nilDeref := false }

/-- The whole request path of the middleware: extract the caller's IP from
the transport-layer address, then run the allow-list decision. -/
def ipWhitelisterServe (whitelists : List IPNet) (remoteAddr : List Char) : HandlerResult :=
  whitelistHandler whitelists (ipFromRemoteAddr remoteAddr)

end Mw

/-! ## Helper lemmas -/

namespace Mw

theorem head?_dropWhile_false {p : α → Bool} {l : List α} {a : α}
    (h : (l.dropWhile p).head? = some a) : p a = false := by
  have hm := List.head?_dropWhile_not p l
  rw [h] at hm
  exact hm

theorem dropWhile_eq_self_of_head {p : α → Bool} {l : List α}
    (h : ∀ a, l.head? = some a → p a = false) : l.dropWhile p = l := by
  cases l with
  | nil => rfl
  | cons a rest => rw [List.dropWhile_cons, if_neg (by simp [h a rfl])]

theorem getLast?_of_suffix {l₁ l₂ : List α} (h : l₂ <:+ l₁) (hne : l₂ ≠ []) :
    l₁.getLast? = l₂.getLast? := by
  obtain ⟨t, rfl⟩ := h
  rw [List.getLast?_append, List.getLast?_eq_getLast l₂ hne]
  rfl

/-- `strings.TrimSpace` is idempotent. -/
theorem trimSpace_idem (s : List Char) : trimSpace (trimSpace s) = trimSpace s := by
  unfold trimSpace
  generalize hT : s.dropWhile isGoSpace = t
  have ht : ∀ a, t.head? = some a → isGoSpace a = false :=
    fun a ha => head?_dropWhile_false (hT ▸ ha)
  generalize hu : (t.reverse.dropWhile isGoSpace) = u
  have h1 : u.reverse.dropWhile isGoSpace = u.reverse := by
    apply dropWhile_eq_self_of_head
    intro a ha
    have hlast : u.getLast? = some a := by rwa [← List.head?_reverse]
    have hne : u ≠ [] := fun h => by rw [h] at hlast; simp at hlast
    have hsuf : u <:+ t.reverse := hu ▸ List.dropWhile_suffix _
    have h2 : t.reverse.getLast? = some a := by rw [getLast?_of_suffix hsuf hne]; exact hlast
    have h3 : t.head? = some a := by rwa [List.getLast?_reverse] at h2
    exact ht a h3
  rw [h1, List.reverse_reverse, ← hu, List.dropWhile_idempotent]

end Mw

namespace Mw

/-- Unfolding equation of `stripServe` on a nonempty configuration. -/
theorem stripServe_cons_eq (q : List Char) (rest : List (List Char)) (path : List Char) :
    stripServe (q :: rest) path =
      (if trimSpace q = path then .forwarded ['/'] (trimSpace q)
       else if (trimPfx path (if hasSfx (trimSpace q) ['/'] then trimSpace q
                              else trimSpace q ++ ['/'])).length < path.length then
         .forwarded
           (if hasPfx (trimPfx path (if hasSfx (trimSpace q) ['/'] then trimSpace q
                                     else trimSpace q ++ ['/'])) ['/'] then path
            else '/' :: trimPfx path (if hasSfx (trimSpace q) ['/'] then trimSpace q
                                      else trimSpace q ++ ['/']))
           (trimSpace q)
       else stripServe rest path) := rfl

/-- Trimming the configured prefixes first does not change the result. -/
theorem stripServe_map_trim (ps : List (List Char)) (path : List Char) :
    stripServe (ps.map trimSpace) path = stripServe ps path := by
  induction ps with
  | nil => rfl
  | cons q rest ih =>
    rw [List.map_cons, stripServe_cons_eq, stripServe_cons_eq, trimSpace_idem, ih]

/-- A forwarded header is the trimmed form of one of the configured
prefixes. -/
theorem stripServe_header_mem (ps : List (List Char)) (path fp hd : List Char)
    (h : stripServe ps path = .forwarded fp hd) : hd ∈ ps.map trimSpace := by
  induction ps with
  | nil => simp [stripServe] at h
  | cons q rest ih =>
    rw [stripServe_cons_eq] at h
    by_cases h1 : trimSpace q = path
    · rw [if_pos h1] at h; cases h; exact List.mem_cons_self _ _
    · rw [if_neg h1] at h
      by_cases h2 : (trimPfx path (if hasSfx (trimSpace q) ['/'] then trimSpace q
          else trimSpace q ++ ['/'])).length < path.length
      · rw [if_pos h2] at h; cases h; exact List.mem_cons_self _ _
      · rw [if_neg h2] at h; exact List.mem_cons_of_mem _ (ih h)

/-- The matching test of one iteration of `StripPrefix.ServeHTTP`: the
trimmed candidate equals the path, or stripping the candidate
(slash-appended unless it ends in one) shortens the path. -/
def matchesPfx (q path : List Char) : Bool :=
  (trimSpace q == path) ||
    decide ((trimPfx path (if hasSfx (trimSpace q) ['/'] then trimSpace q
                           else trimSpace q ++ ['/'])).length < path.length)

/-- A non-matching configured prefix is skipped. -/
theorem stripServe_skip (q : List Char) (rest : List (List Char)) (path : List Char)
    (h : matchesPfx q path = false) : stripServe (q :: rest) path = stripServe rest path := by
  unfold matchesPfx at h
  rw [Bool.or_eq_false_iff] at h
  obtain ⟨h1, h2⟩ := h
  rw [stripServe_cons_eq, if_neg (by simpa using h1), if_neg (by simpa using h2)]

/-- When no configured prefix matches, the result is 404 and the
downstream handler never runs. -/
theorem stripServe_notFound (ps : List (List Char)) (path : List Char)
    (h : ∀ q ∈ ps, matchesPfx q path = false) : stripServe ps path = .notFound := by
  induction ps with
  | nil => rfl
  | cons q rest ih =>
    rw [stripServe_skip q rest path (h q (List.mem_cons_self _ _))]
    exact ih (fun x hx => h x (List.mem_cons_of_mem _ hx))

theorem trimPfx_append (a b : List Char) : trimPfx (a ++ b) a = b := by
  have h : hasPfx (a ++ b) a = true := by
    simp [hasPfx, List.isPrefixOf_iff_prefix]
  rw [trimPfx, if_pos h, List.drop_left]

end Mw

/-! ## C9: event coalescing in the provider aggregation sink -/

/-- C9: the aggregation event sink (`WatchAll`'s channel of capacity 1,
fed by `eventHandlerFunc`) holds at most one pending signal; a push
enqueues the event exactly when the sink is empty and discards it exactly
when a signal is already pending, so after any push a signal is pending —
no event is dropped without a rebuild trigger remaining queued. -/
theorem c9_event_coalescing {α : Type} (events : List α) (obj : α)
    (h : events.length ≤ K8s.eventChCapacity) :
    (K8s.eventHandlerFunc events obj).length ≤ K8s.eventChCapacity ∧
    (events = [] → K8s.eventHandlerFunc events obj = [obj]) ∧
    (events ≠ [] → K8s.eventHandlerFunc events obj = events) ∧
    K8s.eventHandlerFunc events obj ≠ [] := by
  unfold K8s.eventHandlerFunc K8s.eventChCapacity at *
  cases events with
  | nil => simp
  | cons a rest =>
    have hlt : ¬ (a :: rest).length < 1 := by simp
    rw [if_neg hlt]
    refine ⟨h, by simp, fun _ => rfl, by simp⟩

/-- Witness for C9 at the empty sink and event `0`. -/
theorem c9_event_coalescing_witness :
    (K8s.eventHandlerFunc ([] : List Nat) 0).length ≤ K8s.eventChCapacity ∧
    (([] : List Nat) = [] → K8s.eventHandlerFunc ([] : List Nat) 0 = [0]) ∧
    (([] : List Nat) ≠ [] → K8s.eventHandlerFunc ([] : List Nat) 0 = []) ∧
    K8s.eventHandlerFunc ([] : List Nat) 0 ≠ [] :=
  c9_event_coalescing [] 0 (by decide)

/-! ## C10: white-space trimming of configured prefixes -/

/-- C10: the stripper trims surrounding white space from each configured
prefix before matching: two configurations equal up to surrounding white
space behave identically on every request, and a forwarded header is
always the trimmed form of one of the configured prefixes. -/
theorem c10_whitespace_trimming (ps qs : List (List Char)) (path : List Char)
    (h : ps.map Mw.trimSpace = qs.map Mw.trimSpace) :
    Mw.stripServe ps path = Mw.stripServe qs path ∧
    (∀ fp hd, Mw.stripServe ps path = .forwarded fp hd →
      hd ∈ ps.map Mw.trimSpace ∧ Mw.trimSpace hd = hd) := by
  constructor
  · rw [← Mw.stripServe_map_trim ps, h, Mw.stripServe_map_trim]
  · intro fp hd hf
    have hm := Mw.stripServe_header_mem ps path fp hd hf
    refine ⟨hm, ?_⟩
    obtain ⟨x, hx, rfl⟩ := List.mem_map.mp hm
    exact Mw.trimSpace_idem x

/-- Witness for C10: a prefix padded with spaces behaves like the plain
one, and the emitted header is the trimmed form. -/
theorem c10_whitespace_trimming_witness :
    (Mw.stripServe [" /stat/ ".toList] "/stat/us".toList =
      Mw.stripServe ["/stat/".toList] "/stat/us".toList ∧
    (∀ fp hd, Mw.stripServe [" /stat/ ".toList] "/stat/us".toList = .forwarded fp hd →
      hd ∈ [" /stat/ ".toList].map Mw.trimSpace ∧ Mw.trimSpace hd = hd)) :=
  c10_whitespace_trimming [" /stat/ ".toList] ["/stat/".toList] "/stat/us".toList (by decide)

/-! ## C7: prefix-stripping round trip -/

/-- C7 counterexample: for configured prefix `/stat/` and suffix `/us`
(which starts with `/`), the claim predicts the forwarded path `/us`, but
the code leaves the path unchanged (`/stat//us`) because the stripped
remainder starts with `/`. -/
theorem c7_counterexample :
    Mw.stripServe ["/stat/".toList] ("/stat/".toList ++ "/us".toList) =
      .forwarded "/stat//us".toList "/stat/".toList ∧
    Mw.StripResult.forwarded "/stat//us".toList "/stat/".toList ≠
      .forwarded "/us".toList "/stat/".toList := by decide

/-- C7 (amended): paths matching no configured prefix get a 404 with the
downstream handler never invoked, non-matching prefixes are skipped in
order, and for the first matching (trimmed) prefix `p`: the exact path `p`
forwards as `/`; a path `p + "/" + t` with `p` not slash-terminated and
`t` not starting with `/` forwards as `"/" + t`; a path `p + u` with `p`
slash-terminated and `u` a nonempty segment not starting with `/` forwards
as `"/" + u`; but whenever the remainder after the matched prefix itself
starts with `/` (a double slash at the junction) the path is forwarded
unchanged.  The forwarded header is always `p`.  The spec's concrete
examples hold. -/
theorem c7_strip_roundtrip_amended :
    (∀ ps path, (∀ q ∈ ps, Mw.matchesPfx q path = false) →
        Mw.stripServe ps path = .notFound) ∧
    (∀ q rest path, Mw.matchesPfx q path = false →
        Mw.stripServe (q :: rest) path = Mw.stripServe rest path) ∧
    (∀ p rest, Mw.trimSpace p = p →
        Mw.stripServe (p :: rest) (p ++ []) = .forwarded ['/'] p) ∧
    (∀ p rest t, Mw.trimSpace p = p → Mw.hasSfx p ['/'] = false → Mw.hasPfx t ['/'] = false →
        Mw.stripServe (p :: rest) (p ++ '/' :: t) = .forwarded ('/' :: t) p) ∧
    (∀ p rest u, Mw.trimSpace p = p → Mw.hasSfx p ['/'] = true → Mw.hasPfx u ['/'] = false →
        u ≠ [] → Mw.stripServe (p :: rest) (p ++ u) = .forwarded ('/' :: u) p) ∧
    (∀ p rest t, Mw.trimSpace p = p → Mw.hasSfx p ['/'] = true →
        Mw.stripServe (p :: rest) (p ++ '/' :: t) = .forwarded (p ++ '/' :: t) p) ∧
    (∀ p rest t, Mw.trimSpace p = p → Mw.hasSfx p ['/'] = false →
        Mw.stripServe (p :: rest) (p ++ '/' :: '/' :: t) = .forwarded (p ++ '/' :: '/' :: t) p) ∧
    (Mw.stripServe ["/stat/".toList, "/".toList] "/stat/us".toList =
        .forwarded "/us".toList "/stat/".toList ∧
      Mw.stripServe ["/stat/".toList, "/".toList] "/anything".toList =
        .forwarded "/anything".toList "/".toList) := by
  refine ⟨Mw.stripServe_notFound, Mw.stripServe_skip, ?_, ?_, ?_, ?_, ?_, by decide⟩
  · intro p rest hTrim
    rw [List.append_nil, Mw.stripServe_cons_eq, hTrim, if_pos rfl]
  · intro p rest t hTrim hSfx hPfxT
    have hpath : p ++ '/' :: t = (p ++ ['/']) ++ t := by simp
    rw [Mw.stripServe_cons_eq, hTrim, hSfx]
    rw [if_neg (by
      intro he
      have hl := congrArg List.length he
      simp at hl)]
    simp only [Bool.false_eq_true, if_false]
    rw [hpath, Mw.trimPfx_append]
    rw [if_pos (by simp; omega)]
    rw [hPfxT]
    simp only [Bool.false_eq_true, if_false]
  · intro p rest u hTrim hSfx hPfxU hu
    have hpne : p ≠ [] := by
      intro he
      rw [he] at hSfx
      exact absurd hSfx (by decide)
    rw [Mw.stripServe_cons_eq, hTrim, hSfx]
    rw [if_neg (by
      intro he
      have hl := congrArg List.length he
      simp at hl
      exact hu hl)]
    simp only [if_true]
    rw [Mw.trimPfx_append]
    rw [if_pos (by
      simp only [List.length_append]
      have : 0 < p.length := List.length_pos.mpr hpne
      omega)]
    rw [hPfxU]
    simp only [Bool.false_eq_true, if_false]
  · intro p rest t hTrim hSfx
    have hpne : p ≠ [] := by
      intro he
      rw [he] at hSfx
      exact absurd hSfx (by decide)
    rw [Mw.stripServe_cons_eq, hTrim, hSfx]
    rw [if_neg (by
      intro he
      have hl := congrArg List.length he
      simp at hl)]
    simp only [if_true]
    rw [Mw.trimPfx_append]
    rw [if_pos (by
      simp only [List.length_append, List.length_cons]
      have : 0 < p.length := List.length_pos.mpr hpne
      omega)]
    rw [if_pos (by simp [Mw.hasPfx, List.isPrefixOf])]
  · intro p rest t hTrim hSfx
    have hpath : p ++ '/' :: '/' :: t = (p ++ ['/']) ++ '/' :: t := by simp
    rw [Mw.stripServe_cons_eq, hTrim, hSfx]
    rw [if_neg (by
      intro he
      have hl := congrArg List.length he
      simp at hl)]
    simp only [Bool.false_eq_true, if_false]
    rw [hpath, Mw.trimPfx_append]
    rw [if_pos (by simp; omega)]
    rw [if_pos (by simp [Mw.hasPfx, List.isPrefixOf])]

/-- Witness for the amended C7 at prefix `/stat` and suffix `/us`. -/
theorem c7_strip_roundtrip_amended_witness :
    Mw.stripServe ["/stat".toList] ("/stat".toList ++ '/' :: "us".toList) =
      .forwarded ('/' :: "us".toList) "/stat".toList :=
  c7_strip_roundtrip_amended.2.2.2.1 "/stat".toList [] "us".toList
    (by decide) (by decide) (by decide)

/-! ## C4: construction of the IP allow-list filter -/

namespace Mw

theorem parseWhitelists_ok (strs : List (List Char)) (h : ∀ s ∈ strs, (ParseCIDR s).isSome) :
    ∃ nets, parseWhitelists strs = .ok nets := by
  induction strs with
  | nil => exact ⟨[], rfl⟩
  | cons s rest ih =>
    obtain ⟨⟨ip0, net0⟩, hnet⟩ := Option.isSome_iff_exists.mp (h s (List.mem_cons_self _ _))
    obtain ⟨nets, hr⟩ := ih (fun x hx => h x (List.mem_cons_of_mem _ hx))
    exact ⟨net0 :: nets, by rw [parseWhitelists, hnet, hr]⟩

theorem parseWhitelists_err (pre : List (List Char)) (s : List Char) (post : List (List Char))
    (hpre : ∀ q ∈ pre, (ParseCIDR q).isSome) (hs : ParseCIDR s = none) :
    parseWhitelists (pre ++ s :: post) = .error (.cidrError (parseErrMsg s)) := by
  induction pre with
  | nil => simp [parseWhitelists, hs]
  | cons q rest ih =>
    obtain ⟨⟨ip0, net0⟩, hq⟩ := Option.isSome_iff_exists.mp (hpre q (List.mem_cons_self _ _))
    have ih' := ih (fun x hx => hpre x (List.mem_cons_of_mem _ hx))
    rw [List.cons_append, parseWhitelists, hq, ih']

end Mw

/-- C4: constructing the allow-list filter succeeds for every nonempty
list of parseable CIDR literals, fails with the no-allow-lists error for
the empty (or nil) list, and for a list whose first unparseable literal is
`s` fails with a CIDR-parse error whose message carries `s` verbatim. -/
theorem c4_new_ip_whitelister (strs : List (List Char)) :
    (strs = [] → Mw.NewIPWhitelister strs = .error .noWhitelists) ∧
    (strs ≠ [] → (∀ s ∈ strs, (Mw.ParseCIDR s).isSome) →
      ∃ nets, Mw.NewIPWhitelister strs = .ok nets) ∧
    (∀ pre s post, strs = pre ++ s :: post → (∀ q ∈ pre, (Mw.ParseCIDR q).isSome) →
      Mw.ParseCIDR s = none →
      Mw.NewIPWhitelister strs = .error (.cidrError (Mw.parseErrMsg s)) ∧
      Mw.parseErrMsg s =
        "Error PArsing CIDR Whitelist <nil>: invalid CIDR address: ".toList ++ s) := by
  refine ⟨?_, ?_, ?_⟩
  · intro h; subst h; rfl
  · intro hne hall
    rw [Mw.NewIPWhitelister, if_neg (by simp [List.length_eq_zero, hne])]
    exact Mw.parseWhitelists_ok strs hall
  · intro pre s post hsplit hpre hs
    subst hsplit
    constructor
    · rw [Mw.NewIPWhitelister, if_neg (by simp)]
      exact Mw.parseWhitelists_err pre s post hpre hs
    · rfl

/-- Witness for C4: the valid literal `127.0.0.1/8` is accepted, and the
invalid literal `foo` produces the parse error naming `foo`. -/
theorem c4_new_ip_whitelister_witness :
    (∃ nets, Mw.NewIPWhitelister ["127.0.0.1/8".toList] = .ok nets) ∧
    (Mw.NewIPWhitelister ["foo".toList] = .error (.cidrError (Mw.parseErrMsg "foo".toList)) ∧
      Mw.parseErrMsg "foo".toList =
        "Error PArsing CIDR Whitelist <nil>: invalid CIDR address: ".toList ++ "foo".toList) :=
  ⟨(c4_new_ip_whitelister ["127.0.0.1/8".toList]).2.1 (by decide) (by decide),
   (c4_new_ip_whitelister ["foo".toList]).2.2 [] "foo".toList [] rfl (by decide) (by decide)⟩

/-! ## C6: unparseable source addresses -/

/-- C6 (code bug): for a request whose transport-layer source address does
not parse, the handler writes the 403 but — the `reject(w)` call not being
followed by a `return` — continues into the allow-list loop and evaluates
`whitelist.Contains(*remoteIP)` on the nil pointer (`nilDeref`, a
nil-pointer panic in Go): processing does not short-circuit at the
rejection, contrary to the claim.  Shown both in general for any nonempty
allow list and concretely for `127.0.0.1/8` with remote address
`foo:2342`. -/
theorem c6_nil_deref_after_reject :
    Mw.ipFromRemoteAddr "foo:2342".toList = none ∧
    (∀ (net : Mw.IPNet) (rest : List Mw.IPNet),
      Mw.whitelistHandler (net :: rest) none =
        { writes := [403], nextInvoked := false, nilDeref := true }) ∧
    Mw.ipWhitelisterServe [⟨[127, 0, 0, 0], [255, 0, 0, 0]⟩] "foo:2342".toList =
      { writes := [403], nextInvoked := false, nilDeref := true } :=
  ⟨by decide, fun _ _ => rfl, by decide⟩

/-! ## C3: sticky-session stability -/

namespace Oxy

theorem isBackendAlive_iff (E : URL) (r : RoundRobin) :
    isBackendAlive E (Servers r) = true ↔ ∃ s ∈ r.servers, sameURL E s.url := by
  unfold isBackendAlive Servers
  by_cases h : (r.servers.map Server.url).length = 0
  · rw [if_pos h]
    have hnil : r.servers = [] := by simpa using h
    simp [hnil]
  · rw [if_neg h]
    simp only [List.any_eq_true, List.mem_map]
    constructor
    · rintro ⟨x, ⟨s, hs, rfl⟩, hx⟩
      exact ⟨s, hs, hx⟩
    · rintro ⟨s, hs, hx⟩
      exact ⟨s.url, ⟨s, hs, rfl⟩, hx⟩

end Oxy

/-- C3: with sticky sessions enabled, a request whose affinity cookie
names a backend still in the pool is dispatched to that backend (no new
cookie, pool untouched); when the cookie names a backend no longer in the
pool, the dispatch falls back to the weighted selection and the response
cookie is set to the newly chosen backend. -/
theorem c3_sticky_sessions (r : Oxy.RoundRobin) (E : Oxy.URL) (fuel : Nat) :
    ((∃ s ∈ r.servers, Oxy.sameURL E s.url) →
      Oxy.ServeHTTPSticky r (some E) fuel =
        some { dispatched := some E, setCookie := none, pool := r }) ∧
    ((¬ ∃ s ∈ r.servers, Oxy.sameURL E s.url) →
      ∀ srv r', Oxy.nextServer r fuel = some (.ok srv, r') →
        Oxy.ServeHTTPSticky r (some E) fuel =
          some { dispatched := some srv.url, setCookie := some srv.url, pool := r' }) := by
  constructor
  · intro h
    have ha : Oxy.isBackendAlive E (Oxy.Servers r) = true := (Oxy.isBackendAlive_iff E r).mpr h
    simp [Oxy.ServeHTTPSticky, Oxy.GetBackend, ha]
  · intro h srv r' hns
    have ha : Oxy.isBackendAlive E (Oxy.Servers r) = false := by
      cases hb : Oxy.isBackendAlive E (Oxy.Servers r) with
      | false => rfl
      | true => exact absurd ((Oxy.isBackendAlive_iff E r).mp hb) h
    simp [Oxy.ServeHTTPSticky, Oxy.GetBackend, ha, hns]

/-- Witness for C3 on a two-server pool: a cookie for the second server is
honoured; a cookie for an unknown server falls back to selection of the
first server and re-sticks it. -/
theorem c3_sticky_sessions_witness :
    (Oxy.ServeHTTPSticky
        ⟨-1, [⟨⟨"http".toList, "s1".toList, [] ⟩, 1⟩, ⟨⟨"http".toList, "s2".toList, [] ⟩, 1⟩], 0⟩
        (some ⟨"http".toList, "s2".toList, [] ⟩) 10 =
      some { dispatched := some ⟨"http".toList, "s2".toList, [] ⟩, setCookie := none,
             pool := ⟨-1, [⟨⟨"http".toList, "s1".toList, [] ⟩, 1⟩, ⟨⟨"http".toList, "s2".toList, [] ⟩, 1⟩], 0⟩ }) ∧
    (Oxy.ServeHTTPSticky
        ⟨-1, [⟨⟨"http".toList, "s1".toList, [] ⟩, 1⟩, ⟨⟨"http".toList, "s2".toList, [] ⟩, 1⟩], 0⟩
        (some ⟨"http".toList, "gone".toList, [] ⟩) 10 =
      some { dispatched := some ⟨"http".toList, "s1".toList, [] ⟩,
             setCookie := some ⟨"http".toList, "s1".toList, [] ⟩,
             pool := ⟨0, [⟨⟨"http".toList, "s1".toList, [] ⟩, 1⟩, ⟨⟨"http".toList, "s2".toList, [] ⟩, 1⟩], 1⟩ }) :=
  ⟨(c3_sticky_sessions _ _ 10).1 (by decide),
   (c3_sticky_sessions _ _ 10).2 (by decide) ⟨⟨"http".toList, "s1".toList, [] ⟩, 1⟩
     ⟨0, [⟨⟨"http".toList, "s1".toList, [] ⟩, 1⟩, ⟨⟨"http".toList, "s2".toList, [] ⟩, 1⟩], 1⟩ (by decide)⟩

/-! ## C1: the weighted round-robin selection algorithm -/

namespace Oxy

/-- Modelled from the spec: one micro-step of the selection scan —
"advance cursor modulo pool size; when the cursor wraps to zero, decrease
the current-weight counter by the greatest-common-divisor of all endpoint
weights; if the counter reaches ≤ 0, reset it to the maximum endpoint
weight (fail if that maximum is 0)". -/
def specStep (n : Nat) (g mx : Int) (st : Int × Int) : Option (Int × Int) :=
  let idx := (st.1 + 1).tmod (n : Int)
  if idx = 0 then
    (if st.2 - g ≤ 0 then (if mx = 0 then none else some (idx, mx)) else some (idx, st.2 - g))
  else some (idx, st.2)

/-- Modelled from the spec: "scan forward from the cursor until an
endpoint whose weight ≥ current-weight is found, and return it" — repeat
the micro-step until the endpoint under the cursor qualifies; a failing
micro-step is the all-endpoints-disabled error. -/
def specScan (ws : List Nat) (g mx : Int) : Nat → Int × Int → LoopOut
  | 0, _ => .fuelOut
  | f+1, st =>
    match specStep ws.length g mx st with
    | none => .allZero
    | some st' =>
      if (ws.getD st'.1.toNat 0 : Int) ≥ st'.2 then .ok st'.1.toNat st'.2
      else specScan ws g mx f st'

/-- Modelled from the spec: the whole selection call — "if the pool is
empty, fail with `EmptyPool`", otherwise run the scan from the stored
cursor and counter. -/
def nextServerSpec (r : RoundRobin) (fuel : Nat) : Option (Except RRError Server × RoundRobin) :=
  if r.servers.length = 0 then some (.error .emptyPool, r)
  else
    match specScan (r.servers.map Server.weight) (weightGcd r.servers) (maxWeight r.servers)
        fuel (r.index, r.currentWeight) with
    | .fuelOut => none
    | .allZero => some (.error .noAvailableEndpoints, { r with index := 0, currentWeight := 0 })
    | .ok sel cw =>
      some (.ok (r.servers.getD sel default), { r with index := (sel : Int), currentWeight := cw })

/-- The code's selection loop computes exactly the spec's
step/scan description. -/
theorem rrLoop_eq_specScan (ws : List Nat) (g mx : Int) :
    ∀ (fuel : Nat) (i c : Int), rrLoop ws g mx fuel i c = specScan ws g mx fuel (i, c) := by
  intro fuel
  induction fuel with
  | zero => intro i c; rfl
  | succ f ih =>
    intro i c
    simp only [rrLoop, specScan, specStep]
    by_cases h0 : ((i + 1).tmod (ws.length : Int)) = 0
    · rw [if_pos h0, if_pos h0]
      by_cases h1 : c - g ≤ 0
      · rw [if_pos h1, if_pos h1]
        by_cases h2 : mx = 0
        · rw [if_pos h2, if_pos h2]
        · rw [if_neg h2, if_neg h2]
          simp only []
          rw [ih]
      · rw [if_neg h1, if_neg h1]
        simp only []
        rw [ih]
    · rw [if_neg h0, if_neg h0]
      simp only []
      rw [ih]

theorem weightGcd_go (ss : List Server) (d : Nat) :
    ss.foldl (fun d s => if d = -1 then (s.weight : Int) else (Nat.gcd d.toNat s.weight : Nat))
        (d : Int) =
      (((ss.map Server.weight).foldl Nat.gcd d : Nat) : Int) := by
  induction ss generalizing d with
  | nil => rfl
  | cons s rest ih =>
    simp only [List.foldl_cons, List.map_cons]
    have hne : (d : Int) ≠ -1 := by omega
    rw [if_neg hne]
    have ht : ((d : Int)).toNat = d := Int.toNat_natCast d
    rw [ht]
    exact ih (Nat.gcd d s.weight)

/-- On a nonempty pool, `weightGcd` is the `Nat.gcd` fold of the weights. -/
theorem weightGcd_eq (s : Server) (rest : List Server) :
    weightGcd (s :: rest) = ((((s :: rest).map Server.weight).foldl Nat.gcd 0 : Nat) : Int) := by
  unfold weightGcd
  rw [List.foldl_cons, if_pos rfl, List.map_cons, List.foldl_cons, Nat.gcd_zero_left]
  exact weightGcd_go rest s.weight

theorem maxWeight_go (ss : List Server) (d : Nat) :
    ss.foldl (fun m s => if (s.weight : Int) > m then (s.weight : Int) else m) (d : Int) =
      (((ss.map Server.weight).foldl Nat.max d : Nat) : Int) := by
  induction ss generalizing d with
  | nil => rfl
  | cons s rest ih =>
    simp only [List.foldl_cons, List.map_cons]
    have hstep : (if (s.weight : Int) > (d : Int) then (s.weight : Int) else (d : Int)) =
        ((Nat.max d s.weight : Nat) : Int) := by
      by_cases h : (s.weight : Int) > (d : Int)
      · rw [if_pos h]
        have hd : d < s.weight := by exact_mod_cast h
        have hmx : Nat.max d s.weight = s.weight := Nat.max_eq_right (le_of_lt hd)
        rw [hmx]
      · rw [if_neg h]
        have hd : s.weight ≤ d := by omega
        have hmx : Nat.max d s.weight = d := Nat.max_eq_left hd
        rw [hmx]
    rw [hstep]
    exact ih (Nat.max d s.weight)

/-- On a nonempty pool, `maxWeight` is the `Nat.max` fold of the weights. -/
theorem maxWeight_eq (s : Server) (rest : List Server) :
    maxWeight (s :: rest) = ((((s :: rest).map Server.weight).foldl Nat.max 0 : Nat) : Int) := by
  unfold maxWeight
  rw [List.foldl_cons, if_pos (by omega), List.map_cons, List.foldl_cons]
  have hmx : Nat.max 0 s.weight = s.weight := Nat.max_eq_right (Nat.zero_le _)
  rw [hmx]
  exact maxWeight_go rest s.weight

theorem weightGcd_nonneg (s : Server) (rest : List Server) : 0 ≤ weightGcd (s :: rest) := by
  rw [weightGcd_eq]
  exact Int.natCast_nonneg _

/-- From the reset state with a zero maximum weight and a nonnegative gcd,
the selection loop fails immediately. -/
theorem rrLoop_reset_allZero (ws : List Nat) (g : Int) (hg : 0 ≤ g) (f : Nat) :
    rrLoop ws g 0 (f + 1) (-1) 0 = .allZero := by
  simp only [rrLoop]
  norm_num [Int.zero_tmod]
  rw [if_pos hg]

end Oxy

/-- C1: each `nextServer` call computes exactly the spec's step sequence
(advance modulo size; on wrap decrement by the gcd; on `≤ 0` reset to the
maximum, failing with `NoAvailableEndpoints` when it is 0; scan forward to
the first endpoint with weight ≥ current weight); an empty pool fails with
`EmptyPool`; and on a nonempty pool in the reset state whose maximum
weight is 0, the call fails with `NoAvailableEndpoints`. -/
theorem c1_next_server_algorithm (r : Oxy.RoundRobin) (fuel : Nat) :
    Oxy.nextServer r fuel = Oxy.nextServerSpec r fuel ∧
    (r.servers = [] → Oxy.nextServer r fuel = some (.error .emptyPool, r)) ∧
    (r.servers ≠ [] → r.index = -1 → r.currentWeight = 0 → Oxy.maxWeight r.servers = 0 →
      1 ≤ fuel →
      Oxy.nextServer r fuel =
        some (.error .noAvailableEndpoints, { r with index := 0, currentWeight := 0 })) := by
  refine ⟨?_, ?_, ?_⟩
  · unfold Oxy.nextServer Oxy.nextServerSpec
    rw [Oxy.rrLoop_eq_specScan]
  · intro h
    unfold Oxy.nextServer
    rw [if_pos (by simp [h])]
  · intro hne hidx hcw hmx hfuel
    have hg : 0 ≤ Oxy.weightGcd r.servers := by
      cases hs : r.servers with
      | nil => exact absurd hs hne
      | cons a b => exact hs ▸ Oxy.weightGcd_nonneg a b
    obtain ⟨f, rfl⟩ : ∃ f, fuel = f + 1 := ⟨fuel - 1, by omega⟩
    unfold Oxy.nextServer
    rw [if_neg (by simp [List.length_eq_zero, hne]), hidx, hcw, hmx,
      Oxy.rrLoop_reset_allZero _ _ hg f]

/-- Witness for C1: a two-server pool agrees with the spec scan; the empty
pool fails with `EmptyPool`; a pool whose only endpoint has weight 0 fails
with `NoAvailableEndpoints`. -/
theorem c1_next_server_algorithm_witness :
    (Oxy.nextServer ⟨-1, [⟨⟨[], [], []⟩, 1⟩, ⟨⟨[], ['b'], []⟩, 2⟩], 0⟩ 10 =
      Oxy.nextServerSpec ⟨-1, [⟨⟨[], [], []⟩, 1⟩, ⟨⟨[], ['b'], []⟩, 2⟩], 0⟩ 10) ∧
    (Oxy.nextServer Oxy.New 5 = some (.error .emptyPool, Oxy.New)) ∧
    (Oxy.nextServer ⟨-1, [⟨⟨[], [], []⟩, 0⟩], 0⟩ 5 =
      some (.error .noAvailableEndpoints, ⟨0, [⟨⟨[], [], []⟩, 0⟩], 0⟩)) :=
  ⟨(c1_next_server_algorithm _ 10).1,
   (c1_next_server_algorithm Oxy.New 5).2.1 rfl,
   (c1_next_server_algorithm _ 5).2.2 (by decide) rfl rfl (by decide) (by decide)⟩

/-! ## C8: pool state invariants -/

namespace Oxy

/-- Pool states reachable through the public operations: construction,
endpoint add/remove, and selection (including the state the selection
error path leaves behind). -/
inductive Reachable : RoundRobin → Prop
  | new : Reachable New
  | upsert (r r' : RoundRobin) (u : URL) (w? : Option Int) :
      Reachable r → UpsertServer r u w? = .ok r' → Reachable r'
  | remove (r r' : RoundRobin) (u : URL) :
      Reachable r → RemoveServer r u = .ok r' → Reachable r'
  | next (r r' : RoundRobin) (out : Except RRError Server) (fuel : Nat) :
      Reachable r → nextServer r fuel = some (out, r') → Reachable r'

theorem UpsertServer_ok_index {r r' : RoundRobin} {u : URL} {w? : Option Int}
    (h : UpsertServer r u w? = .ok r') : r'.index = -1 := by
  unfold UpsertServer at h
  split at h <;> split at h
  · split at h
    · exact Except.noConfusion h
    · cases h; rfl
  · cases h; rfl
  · split at h
    · exact Except.noConfusion h
    · cases h; rfl
  · cases h; rfl

theorem RemoveServer_ok_index {r r' : RoundRobin} {u : URL}
    (h : RemoveServer r u = .ok r') : r'.index = -1 := by
  unfold RemoveServer at h
  split at h
  · exact Except.noConfusion h
  · cases h; rfl

/-- A successful selection returns an index inside the pool. -/
theorem rrLoop_ok_sel_lt (ws : List Nat) (g mx : Int) (hws : 0 < ws.length) :
    ∀ (fuel : Nat) (i c : Int) (sel : Nat) (cw : Int),
      rrLoop ws g mx fuel i c = .ok sel cw → sel < ws.length := by
  intro fuel
  induction fuel with
  | zero =>
    intro i c sel cw h
    exact LoopOut.noConfusion h
  | succ f ih =>
    intro i c sel cw h
    rw [rrLoop] at h
    split at h
    · exact LoopOut.noConfusion h
    · split at h
      · cases h
        have hlt := Int.tmod_lt_of_pos (i + 1) (b := (ws.length : Int)) (by exact_mod_cast hws)
        omega
      · exact ih _ _ _ _ h

/-- One `nextServer` call preserves the cursor invariant. -/
theorem nextServer_inv {r r' : RoundRobin} {out : Except RRError Server} {fuel : Nat}
    (h : nextServer r fuel = some (out, r'))
    (hr : r.index = -1 ∨ (0 ≤ r.index ∧ r.index < r.servers.length)) :
    r'.index = -1 ∨ (0 ≤ r'.index ∧ r'.index < r'.servers.length) := by
  unfold nextServer at h
  by_cases hlen : r.servers.length = 0
  · rw [if_pos hlen] at h
    cases h
    exact hr
  · rw [if_neg hlen] at h
    cases hloop : rrLoop (r.servers.map Server.weight) (weightGcd r.servers)
        (maxWeight r.servers) fuel r.index r.currentWeight with
    | fuelOut => rw [hloop] at h; exact Option.noConfusion h
    | allZero =>
      rw [hloop] at h
      cases h
      right
      refine ⟨le_refl 0, ?_⟩
      show (0 : Int) < r.servers.length
      omega
    | ok sel cw =>
      rw [hloop] at h
      cases h
      right
      have hsel := rrLoop_ok_sel_lt (r.servers.map Server.weight) (weightGcd r.servers)
        (maxWeight r.servers) (by simp; omega) fuel r.index r.currentWeight sel cw hloop
      rw [List.length_map] at hsel
      refine ⟨Int.natCast_nonneg sel, ?_⟩
      show (sel : Int) < (r.servers.length : Int)
      exact_mod_cast hsel

/-- On the insert path (URL not yet present), `UpsertServer` appends a new
server, defaulting a zero weight. -/
theorem UpsertServer_insert (r : RoundRobin) (u : URL) (w? : Option Int)
    (hfind : r.servers.findIdx? (fun s => sameURL u s.url) = none) :
    UpsertServer r u w? =
      (match w? with
      | some w =>
        if w < 0 then .error "Weight should be >= 0".toList
        else .ok (resetIterator { r with servers :=
          r.servers ++ [{ url := u, weight := if w.toNat = 0 then defaultWeight else w.toNat }] })
      | none =>
        .ok (resetIterator
          { r with servers := r.servers ++ [{ url := u, weight := defaultWeight }] })) := by
  unfold UpsertServer
  rw [hfind]

end Oxy

/-- C8 (amended): in every reachable pool state the cursor is `-1` (the
before-first value set by construction and by every add/remove) or inside
`[0, len)`; after every successful selection it is inside `[0, len)`; and
an endpoint freshly inserted with configured weight 0 receives the default
weight 1, so the insert path keeps every inserted weight strictly
positive. -/
theorem c8_cursor_invariant_amended :
    (∀ r, Oxy.Reachable r → (r.index = -1 ∨ (0 ≤ r.index ∧ r.index < r.servers.length))) ∧
    (∀ r fuel out r', Oxy.nextServer r fuel = some (Except.ok out, r') →
      0 ≤ r'.index ∧ r'.index < r'.servers.length) ∧
    (∀ r u w?, r.servers.findIdx? (fun s => Oxy.sameURL u s.url) = none →
      ∀ r', Oxy.UpsertServer r u w? = .ok r' →
        ∃ srv, r'.servers = r.servers ++ [srv] ∧ 0 < srv.weight) := by
  refine ⟨?_, ?_, ?_⟩
  · intro r hr
    induction hr with
    | new => left; rfl
    | upsert r0 r' u w? hr0 hup ih => left; exact Oxy.UpsertServer_ok_index hup
    | remove r0 r' u hr0 hrm ih => left; exact Oxy.RemoveServer_ok_index hrm
    | next r0 r' out fuel hr0 hns ih => exact Oxy.nextServer_inv hns ih
  · intro r fuel out r' h
    unfold Oxy.nextServer at h
    by_cases hlen : r.servers.length = 0
    · rw [if_pos hlen] at h
      simp at h
    · rw [if_neg hlen] at h
      cases hloop : Oxy.rrLoop (r.servers.map Oxy.Server.weight) (Oxy.weightGcd r.servers)
          (Oxy.maxWeight r.servers) fuel r.index r.currentWeight with
      | fuelOut => rw [hloop] at h; exact Option.noConfusion h
      | allZero => rw [hloop] at h; simp at h
      | ok sel cw =>
        rw [hloop] at h
        cases h
        have hsel := Oxy.rrLoop_ok_sel_lt (r.servers.map Oxy.Server.weight)
          (Oxy.weightGcd r.servers) (Oxy.maxWeight r.servers) (by simp; omega)
          fuel r.index r.currentWeight sel cw hloop
        rw [List.length_map] at hsel
        refine ⟨Int.natCast_nonneg sel, ?_⟩
        show (sel : Int) < (r.servers.length : Int)
        exact_mod_cast hsel
  · intro r u w? hfind r' h
    rw [Oxy.UpsertServer_insert r u w? hfind] at h
    cases w? with
    | some w =>
      simp only [] at h
      by_cases hw : w < 0
      · rw [if_pos hw] at h
        exact Except.noConfusion h
      · rw [if_neg hw] at h
        cases h
        refine ⟨⟨u, if w.toNat = 0 then Oxy.defaultWeight else w.toNat⟩, rfl, ?_⟩
        by_cases h0 : w.toNat = 0 <;> simp [h0, Oxy.defaultWeight] <;> omega
    | none =>
      simp only [] at h
      cases h
      exact ⟨⟨u, Oxy.defaultWeight⟩, rfl, by simp [Oxy.defaultWeight]⟩

/-- C8 counterexample: the freshly constructed pool is reachable with
cursor `-1`, outside `[0, len)` as the claim states it; and a pool whose
only endpoint was re-weighted to 0 through the public update path is
reachable with total weight 0 despite being nonempty. -/
theorem c8_cursor_invariant_counterexample :
    (Oxy.Reachable Oxy.New ∧ Oxy.New.index = -1 ∧ ¬ (0 ≤ Oxy.New.index)) ∧
    (Oxy.Reachable ⟨-1, [⟨⟨"http".toList, "s1".toList, []⟩, 0⟩], 0⟩ ∧
      (([⟨⟨"http".toList, "s1".toList, []⟩, 0⟩] : List Oxy.Server).map Oxy.Server.weight).sum = 0 ∧
      ([⟨⟨"http".toList, "s1".toList, []⟩, 0⟩] : List Oxy.Server) ≠ []) := by
  refine ⟨⟨.new, rfl, by decide⟩, ?_, by decide, by decide⟩
  have h1 : Oxy.UpsertServer Oxy.New ⟨"http".toList, "s1".toList, []⟩ none =
      .ok ⟨-1, [⟨⟨"http".toList, "s1".toList, []⟩, 1⟩], 0⟩ := by decide
  have h2 : Oxy.UpsertServer ⟨-1, [⟨⟨"http".toList, "s1".toList, []⟩, 1⟩], 0⟩
      ⟨"http".toList, "s1".toList, []⟩ (some 0) =
      .ok ⟨-1, [⟨⟨"http".toList, "s1".toList, []⟩, 0⟩], 0⟩ := by decide
  exact .upsert _ _ _ _ (.upsert _ _ _ _ .new h1) h2

/-- Witness for the amended C8: the invariant instantiated at the freshly
constructed pool, and the insert-path normalization at a concrete pool. -/
theorem c8_cursor_invariant_amended_witness :
    (Oxy.New.index = -1 ∨ (0 ≤ Oxy.New.index ∧ Oxy.New.index < Oxy.New.servers.length)) ∧
    (∃ srv, (⟨-1, [⟨⟨[], "u".toList, []⟩, 1⟩], 0⟩ : Oxy.RoundRobin).servers =
        Oxy.New.servers ++ [srv] ∧ 0 < srv.weight) :=
  ⟨c8_cursor_invariant_amended.1 Oxy.New .new,
   c8_cursor_invariant_amended.2.2 Oxy.New ⟨[], "u".toList, []⟩ (some 0) (by decide)
     ⟨-1, [⟨⟨[], "u".toList, []⟩, 1⟩], 0⟩ (by decide)⟩

/-! ## C2: weighted round-robin fairness -/

namespace Oxy

/-- Selected indices over `m` successive runs of the selection loop with
fuel `F` per call, threading the cursor/weight state; `none` when a call
fails or exhausts its fuel. -/
def runSel (ws : List Nat) (g mx : Int) (F : Nat) : Nat → Int × Int → Option (List Nat × (Int × Int))
  | 0, st => some ([], st)
  | m+1, st =>
    match rrLoop ws g mx F st.1 st.2 with
    | .ok sel cw =>
      (match runSel ws g mx F m ((sel : Int), cw) with
       | some (l, st') => some (sel :: l, st')
       | none => none)
    | _ => none

/-- Selected endpoint positions over `m` successive `nextServer` calls on
a pool (the selected position is the cursor the call leaves behind);
`none` when a call fails or exhausts its fuel. -/
def poolRun (F : Nat) : Nat → RoundRobin → Option (List Nat × RoundRobin)
  | 0, r => some ([], r)
  | m+1, r =>
    match nextServer r F with
    | some (.ok _, r') =>
      (match poolRun F m r' with
       | some (l, r'') => some (r'.index.toNat :: l, r'')
       | none => none)
    | _ => none

/-- The `Nat.gcd` of all weights (equal to `weightGcd` on nonempty pools). -/
def listGcd (ws : List Nat) : Nat := ws.foldl Nat.gcd 0

/-- The maximum weight (equal to `maxWeight` on nonempty pools). -/
def listMax (ws : List Nat) : Nat := ws.foldl Nat.max 0

/-- Indices `≥ p` of endpoints with weight at least `c`, in increasing
order: the remainder of one weight phase of the round-robin schedule. -/
def phaseFrom (ws : List Nat) (c : Nat) (p : Nat) : List Nat :=
  if h : p < ws.length then
    (if c ≤ ws.getD p 0 then p :: phaseFrom ws c (p + 1) else phaseFrom ws c (p + 1))
  else []
termination_by ws.length - p
decreasing_by
  all_goals omega

/-- The schedule of the weight phases `k·g, (k-1)·g, …, 1·g`: at phase
`c` every endpoint with weight `≥ c` is selected once, in index order.
`lowerPhases ws g K` (with `K = max/g`) is one full period. -/
def lowerPhases (ws : List Nat) (g : Nat) : Nat → List Nat
  | 0 => []
  | k+1 => phaseFrom ws ((k + 1) * g) 0 ++ lowerPhases ws g k

theorem weightGcd_eq_listGcd (s : Server) (rest : List Server) :
    weightGcd (s :: rest) = ((listGcd ((s :: rest).map Server.weight) : Nat) : Int) :=
  weightGcd_eq s rest

theorem maxWeight_eq_listMax (s : Server) (rest : List Server) :
    maxWeight (s :: rest) = ((listMax ((s :: rest).map Server.weight) : Nat) : Int) :=
  maxWeight_eq s rest

theorem foldl_gcd_dvd_init (ws : List Nat) : ∀ d : Nat, (ws.foldl Nat.gcd d) ∣ d := by
  induction ws with
  | nil => intro d; exact dvd_refl d
  | cons w rest ih =>
    intro d
    exact dvd_trans (ih (Nat.gcd d w)) (Nat.gcd_dvd_left d w)

theorem foldl_gcd_dvd_mem (ws : List Nat) : ∀ (d x : Nat), x ∈ ws → (ws.foldl Nat.gcd d) ∣ x := by
  induction ws with
  | nil => intro d x hx; cases hx
  | cons w rest ih =>
    intro d x hx
    rcases List.mem_cons.mp hx with h | h
    · subst h
      exact dvd_trans (foldl_gcd_dvd_init rest (Nat.gcd d x)) (Nat.gcd_dvd_right d x)
    · exact ih (Nat.gcd d w) x h

/-- The gcd of the weights divides every weight. -/
theorem listGcd_dvd (ws : List Nat) (x : Nat) (hx : x ∈ ws) : listGcd ws ∣ x :=
  foldl_gcd_dvd_mem ws 0 x hx

theorem foldl_max_le_init (ws : List Nat) : ∀ e : Nat, e ≤ ws.foldl Nat.max e := by
  induction ws with
  | nil => intro e; exact le_refl e
  | cons y t iht => intro e; exact le_trans (Nat.le_max_left e y) (iht (Nat.max e y))

theorem foldl_max_le_mem (ws : List Nat) : ∀ (d x : Nat), x ∈ ws → x ≤ ws.foldl Nat.max d := by
  induction ws with
  | nil => intro d x hx; cases hx
  | cons w rest ih =>
    intro d x hx
    rcases List.mem_cons.mp hx with h | h
    · subst h
      exact le_trans (Nat.le_max_right d x) (foldl_max_le_init rest (Nat.max d x))
    · exact ih (Nat.max d w) x h

/-- Every weight is at most the maximum. -/
theorem le_listMax (ws : List Nat) (x : Nat) (hx : x ∈ ws) : x ≤ listMax ws :=
  foldl_max_le_mem ws 0 x hx

theorem foldl_max_mem (ws : List Nat) : ∀ d : Nat,
    ws.foldl Nat.max d = d ∨ ws.foldl Nat.max d ∈ ws := by
  induction ws with
  | nil => intro d; exact Or.inl rfl
  | cons w rest ih =>
    intro d
    rw [List.foldl_cons]
    rcases ih (Nat.max d w) with h | h
    · by_cases hdw : d ≤ w
      · have hm : Nat.max d w = w := Nat.max_eq_right hdw
        rw [h, hm]
        exact Or.inr (List.mem_cons_self _ _)
      · have hm : Nat.max d w = d := Nat.max_eq_left (by omega)
        rw [h, hm]
        exact Or.inl rfl
    · exact Or.inr (List.mem_cons_of_mem _ h)

/-- On a list of positive weights the maximum is attained. -/
theorem listMax_mem (ws : List Nat) (hne : ws ≠ []) (hpos : ∀ x ∈ ws, 0 < x) :
    listMax ws ∈ ws := by
  rcases foldl_max_mem ws 0 with h | h
  · obtain ⟨w, rest, rfl⟩ : ∃ w rest, ws = w :: rest := by
      cases ws with
      | nil => exact absurd rfl hne
      | cons a b => exact ⟨a, b, rfl⟩
    have hw : w ≤ listMax (w :: rest) := le_listMax _ w (List.mem_cons_self _ _)
    have hp : 0 < listMax (w :: rest) := lt_of_lt_of_le (hpos w (List.mem_cons_self _ _)) hw
    have h0 : listMax (w :: rest) = 0 := h
    omega
  · exact h

end Oxy

namespace Oxy

theorem phaseFrom_cons_aux (ws : List Nat) (c : Nat) :
    ∀ (d p m : Nat) (rest : List Nat), ws.length - p ≤ d → phaseFrom ws c p = m :: rest →
      p ≤ m ∧ m < ws.length ∧ c ≤ ws.getD m 0 ∧
      (∀ i, p ≤ i → i < m → ws.getD i 0 < c) ∧ rest = phaseFrom ws c (m + 1) := by
  intro d
  induction d with
  | zero =>
    intro p m rest hd h
    rw [phaseFrom, dif_neg (by omega)] at h
    exact List.noConfusion h
  | succ d ih =>
    intro p m rest hd h
    rw [phaseFrom] at h
    by_cases hp : p < ws.length
    · rw [dif_pos hp] at h
      by_cases hc : c ≤ ws.getD p 0
      · rw [if_pos hc] at h
        cases h
        exact ⟨le_refl p, hp, hc, fun i h1 h2 => by omega, rfl⟩
      · rw [if_neg hc] at h
        obtain ⟨h1, h2, h3, h4, h5⟩ := ih (p + 1) m rest (by omega) h
        refine ⟨by omega, h2, h3, ?_, h5⟩
        intro i hi1 hi2
        rcases Nat.eq_or_lt_of_le hi1 with heq | hlt
        · subst heq; omega
        · exact h4 i (by omega) hi2
    · rw [dif_neg hp] at h
      exact List.noConfusion h

theorem phaseFrom_cons (ws : List Nat) (c p m : Nat) (rest : List Nat)
    (h : phaseFrom ws c p = m :: rest) :
    p ≤ m ∧ m < ws.length ∧ c ≤ ws.getD m 0 ∧
      (∀ i, p ≤ i → i < m → ws.getD i 0 < c) ∧ rest = phaseFrom ws c (m + 1) :=
  phaseFrom_cons_aux ws c ws.length p m rest (by omega) h

theorem phaseFrom_nil_aux (ws : List Nat) (c : Nat) :
    ∀ (d p : Nat), ws.length - p ≤ d → phaseFrom ws c p = [] →
      ∀ i, p ≤ i → i < ws.length → ws.getD i 0 < c := by
  intro d
  induction d with
  | zero =>
    intro p hd h i hi1 hi2
    omega
  | succ d ih =>
    intro p hd h i hi1 hi2
    rw [phaseFrom] at h
    by_cases hp : p < ws.length
    · rw [dif_pos hp] at h
      by_cases hc : c ≤ ws.getD p 0
      · rw [if_pos hc] at h
        exact List.noConfusion h
      · rw [if_neg hc] at h
        rcases Nat.eq_or_lt_of_le hi1 with heq | hlt
        · subst heq; omega
        · exact ih (p + 1) (by omega) h i (by omega) hi2
    · omega

theorem phaseFrom_nil (ws : List Nat) (c p : Nat) (h : phaseFrom ws c p = []) :
    ∀ i, p ≤ i → i < ws.length → ws.getD i 0 < c :=
  phaseFrom_nil_aux ws c ws.length p (by omega) h

theorem phaseFrom_count_aux (ws : List Nat) (c : Nat) :
    ∀ (d p i : Nat), ws.length - p ≤ d →
      (phaseFrom ws c p).count i =
        if p ≤ i ∧ i < ws.length ∧ c ≤ ws.getD i 0 then 1 else 0 := by
  intro d
  induction d with
  | zero =>
    intro p i hd
    rw [phaseFrom, dif_neg (by omega), if_neg (by omega)]
    rfl
  | succ d ih =>
    intro p i hd
    rw [phaseFrom]
    by_cases hp : p < ws.length
    · rw [dif_pos hp]
      by_cases hc : c ≤ ws.getD p 0
      · rw [if_pos hc, List.count_cons, ih (p + 1) i (by omega)]
        simp only [beq_iff_eq]
        by_cases hpi : p = i
        · subst hpi
          have e1 : ¬ (p + 1 ≤ p ∧ p < ws.length ∧ c ≤ ws.getD p 0) := by omega
          rw [if_neg e1, if_pos (show p = p from rfl), if_pos ⟨le_refl p, hp, hc⟩]
        · rw [if_neg (fun hcontr => hpi (by omega) : ¬(p = i))]
          by_cases h2 : p + 1 ≤ i ∧ i < ws.length ∧ c ≤ ws.getD i 0
          · rw [if_pos h2, if_pos ⟨by omega, h2.2⟩]
          · rw [if_neg h2, if_neg (fun hcontr => h2 ⟨by omega, hcontr.2⟩)]
      · rw [if_neg hc, ih (p + 1) i (by omega)]
        by_cases h2 : p + 1 ≤ i ∧ i < ws.length ∧ c ≤ ws.getD i 0
        · rw [if_pos h2, if_pos ⟨by omega, h2.2⟩]
        · rw [if_neg h2]
          by_cases hpi : p = i
          · subst hpi
            rw [if_neg (fun hcontr => by omega)]
          · rw [if_neg (fun hcontr => h2 ⟨by omega, hcontr.2⟩)]
    · rw [dif_neg hp, if_neg (by omega)]
      rfl

theorem phaseFrom_count (ws : List Nat) (c p i : Nat) :
    (phaseFrom ws c p).count i =
      if p ≤ i ∧ i < ws.length ∧ c ≤ ws.getD i 0 then 1 else 0 :=
  phaseFrom_count_aux ws c ws.length p i (by omega)

theorem phaseFrom_elems_aux (ws : List Nat) (c : Nat) :
    ∀ (d p : Nat), ws.length - p ≤ d → ∀ x ∈ phaseFrom ws c p, x < ws.length := by
  intro d
  induction d with
  | zero =>
    intro p hd x hx
    rw [phaseFrom, dif_neg (by omega)] at hx
    cases hx
  | succ d ih =>
    intro p hd x hx
    rw [phaseFrom] at hx
    by_cases hp : p < ws.length
    · rw [dif_pos hp] at hx
      by_cases hc : c ≤ ws.getD p 0
      · rw [if_pos hc] at hx
        rcases List.mem_cons.mp hx with h | h
        · subst h; exact hp
        · exact ih (p + 1) (by omega) x h
      · rw [if_neg hc] at hx
        exact ih (p + 1) (by omega) x hx
    · rw [dif_neg hp] at hx
      cases hx

theorem phaseFrom_elems (ws : List Nat) (c p : Nat) :
    ∀ x ∈ phaseFrom ws c p, x < ws.length :=
  phaseFrom_elems_aux ws c ws.length p (by omega)

theorem length_eq_sum_count (n : Nat) :
    ∀ (l : List Nat), (∀ x ∈ l, x < n) →
      l.length = ∑ i in Finset.range n, l.count i := by
  intro l
  induction l with
  | nil => intro _; simp
  | cons x t ih =>
    intro h
    have hx : x < n := h x (List.mem_cons_self _ _)
    have ht := ih (fun y hy => h y (List.mem_cons_of_mem _ hy))
    simp only [List.count_cons, List.length_cons, beq_iff_eq]
    rw [Finset.sum_add_distrib, ← ht]
    have hone : (∑ i in Finset.range n, if x = i then 1 else 0) = 1 := by
      rw [Finset.sum_ite_eq (Finset.range n) x (fun _ => 1),
        if_pos (Finset.mem_range.mpr hx)]
    omega

theorem sum_eq_sum_getD (ws : List Nat) :
    ws.sum = ∑ i in Finset.range ws.length, ws.getD i 0 := by
  induction ws with
  | nil => simp
  | cons w t ih =>
    rw [List.sum_cons, List.length_cons, Finset.sum_range_succ']
    simp only [List.getD_cons_succ, List.getD_cons_zero]
    rw [← ih]
    omega

theorem lowerPhases_elems (ws : List Nat) (g : Nat) :
    ∀ k, ∀ x ∈ lowerPhases ws g k, x < ws.length := by
  intro k
  induction k with
  | zero => intro x hx; cases hx
  | succ k ih =>
    intro x hx
    rcases List.mem_append.mp hx with h | h
    · exact phaseFrom_elems ws _ 0 x h
    · exact ih x h

theorem lowerPhases_count (ws : List Nat) (g : Nat) (hg : 0 < g) (i : Nat) (hi : i < ws.length) :
    ∀ k, (lowerPhases ws g k).count i = Nat.min k (ws.getD i 0 / g) := by
  intro k
  induction k with
  | zero => simp [lowerPhases]
  | succ k ih =>
    rw [lowerPhases, List.count_append, ih, phaseFrom_count]
    have hdiv : (k + 1 ≤ ws.getD i 0 / g) ↔ ((k + 1) * g ≤ ws.getD i 0) :=
      Nat.le_div_iff_mul_le hg
    by_cases hc : (k + 1) * g ≤ ws.getD i 0
    · have hq : k + 1 ≤ ws.getD i 0 / g := hdiv.mpr hc
      rw [if_pos ⟨Nat.zero_le i, hi, hc⟩]
      have h1 : Nat.min (k + 1) (ws.getD i 0 / g) = k + 1 := Nat.min_eq_left hq
      have h2 : Nat.min k (ws.getD i 0 / g) = k := Nat.min_eq_left (by omega)
      rw [h1, h2]
      omega
    · have hq : ws.getD i 0 / g ≤ k := by
        by_contra hk
        exact hc (hdiv.mp (by omega))
      rw [if_neg (fun hcontr => hc hcontr.2.2)]
      have h1 : Nat.min (k + 1) (ws.getD i 0 / g) = ws.getD i 0 / g :=
        Nat.min_eq_right (by omega)
      have h2 : Nat.min k (ws.getD i 0 / g) = ws.getD i 0 / g := Nat.min_eq_right hq
      rw [h1, h2]
      omega

theorem lowerPhases_ne_nil (ws : List Nat) (g : Nat) (hne : ws ≠ []) (hpos : ∀ x ∈ ws, 0 < x)
    (k : Nat) (hk1 : 1 ≤ k) (hk2 : k * g ≤ listMax ws) : lowerPhases ws g k ≠ [] := by
  obtain ⟨k', rfl⟩ : ∃ k', k = k' + 1 := ⟨k - 1, by omega⟩
  rw [lowerPhases]
  intro hcontr
  rcases List.append_eq_nil.mp hcontr with ⟨h1, _⟩
  obtain ⟨j, hj, hget⟩ : ∃ j, j < ws.length ∧ ws.getD j 0 = listMax ws := by
    have hm := listMax_mem ws hne hpos
    obtain ⟨j, hj, hget⟩ := List.mem_iff_getElem.mp hm
    exact ⟨j, hj, by rw [List.getD_eq_getElem ws 0 hj]; exact hget⟩
  have := phaseFrom_nil ws ((k' + 1) * g) 0 h1 j (Nat.zero_le j) hj
  omega

end Oxy

namespace Oxy

theorem tmod_small {a b : Int} (h0 : 0 ≤ a) (h1 : a < b) : a.tmod b = a := by
  rw [Int.tmod_eq_emod h0 (by omega)]
  exact Int.emod_eq_of_lt h0 h1

theorem tmod_advance (n j : Nat) (hj : j + 1 < n) :
    ((j : Int) + 1).tmod (n : Int) = ((j + 1 : Nat) : Int) := by
  have h : ((j : Int) + 1) = ((j + 1 : Nat) : Int) := by push_cast; ring
  rw [h]
  exact tmod_small (Int.natCast_nonneg _) (by exact_mod_cast hj)

theorem rrLoop_step_nowrap (ws : List Nat) (g mx : Int) (f : Nat) (i cw : Int)
    (h : (i + 1).tmod (ws.length : Int) ≠ 0) :
    rrLoop ws g mx (f + 1) i cw =
      (if cw ≤ (ws.getD ((i + 1).tmod (ws.length : Int)).toNat 0 : Int) then
        LoopOut.ok ((i + 1).tmod (ws.length : Int)).toNat cw
      else rrLoop ws g mx f ((i + 1).tmod (ws.length : Int)) cw) := by
  simp only [rrLoop, if_neg h]

theorem rrLoop_step_wrap_pos (ws : List Nat) (g mx : Int) (f : Nat) (i cw : Int)
    (h0 : (i + 1).tmod (ws.length : Int) = 0) (hpos : ¬ cw - g ≤ 0) :
    rrLoop ws g mx (f + 1) i cw =
      (if cw - g ≤ (ws.getD 0 0 : Int) then LoopOut.ok 0 (cw - g)
       else rrLoop ws g mx f 0 (cw - g)) := by
  simp only [rrLoop, h0, if_pos (rfl : (0 : Int) = 0), if_neg hpos]
  rfl

theorem rrLoop_step_wrap_reset (ws : List Nat) (g mx : Int) (f : Nat) (i cw : Int)
    (h0 : (i + 1).tmod (ws.length : Int) = 0) (hle : cw - g ≤ 0) (hmx : mx ≠ 0) :
    rrLoop ws g mx (f + 1) i cw =
      (if mx ≤ (ws.getD 0 0 : Int) then LoopOut.ok 0 mx else rrLoop ws g mx f 0 mx) := by
  simp only [rrLoop, h0, if_pos (rfl : (0 : Int) = 0), if_pos hle, if_neg hmx]
  rfl

/-- Forward scan: with a first qualifying endpoint `m` strictly between
the cursor and the end of the pool, the loop selects `m` without touching
the weight counter. -/
theorem scan_hit (ws : List Nat) (g mx : Int) :
    ∀ (f j m : Nat) (c : Int), j < m → m < ws.length →
      (∀ i, j < i → i < m → ((ws.getD i 0 : Int) < c)) →
      (c ≤ (ws.getD m 0 : Int)) → m - j ≤ f →
      rrLoop ws g mx f (j : Int) c = .ok m c := by
  intro f
  induction f with
  | zero => intro j m c h1 h2 h3 h4 h5; omega
  | succ f ih =>
    intro j m c h1 h2 h3 h4 h5
    have hj1n : j + 1 < ws.length := by omega
    have hcast := tmod_advance ws.length j hj1n
    rw [rrLoop_step_nowrap ws g mx f _ c (by rw [hcast]; exact_mod_cast Nat.succ_ne_zero j)]
    rw [hcast, Int.toNat_natCast]
    by_cases hjm : j + 1 = m
    · rw [hjm, if_pos h4]
    · rw [if_neg (not_le.mpr (h3 (j + 1) (by omega) (by omega)))]
      exact ih (j + 1) m c (by omega) h2 (fun i hi1 hi2 => h3 i (by omega) hi2) h4 (by omega)

/-- Forward scan with no qualifying endpoint ahead: the loop walks to the
last position unchanged. -/
theorem scan_to_wrap (ws : List Nat) (g mx : Int) :
    ∀ (f j : Nat) (c : Int), j < ws.length →
      (∀ i, j < i → i < ws.length → ((ws.getD i 0 : Int) < c)) →
      ws.length - 1 - j ≤ f →
      rrLoop ws g mx f (j : Int) c =
        rrLoop ws g mx (f - (ws.length - 1 - j)) ((ws.length - 1 : Nat) : Int) c := by
  intro f
  induction f with
  | zero =>
    intro j c h1 h2 h3
    have hj : j = ws.length - 1 := by omega
    rw [hj]
    have h0 : ws.length - 1 - (ws.length - 1) = 0 := by omega
    rw [h0]
  | succ f ih =>
    intro j c h1 h2 h3
    by_cases hj : j = ws.length - 1
    · rw [hj]
      have h0 : ws.length - 1 - (ws.length - 1) = 0 := by omega
      rw [h0, Nat.sub_zero]
    · have hj1n : j + 1 < ws.length := by omega
      have hcast := tmod_advance ws.length j hj1n
      rw [rrLoop_step_nowrap ws g mx f _ c (by rw [hcast]; exact_mod_cast Nat.succ_ne_zero j)]
      rw [hcast, Int.toNat_natCast]
      rw [if_neg (not_le.mpr (h2 (j + 1) (by omega) hj1n))]
      rw [ih (j + 1) c hj1n (fun i hi1 hi2 => h2 i (by omega) hi2) (by omega)]
      have harith : f - (ws.length - 1 - (j + 1)) = f + 1 - (ws.length - 1 - j) := by omega
      rw [harith]

/-- After a weight adjustment at the wrap, the first qualifying endpoint
of the new phase (starting the check at position 0) is selected. -/
theorem sel_from_zero (ws : List Nat) (g mx : Int) (f : Nat) (cN m0 : Nat) (rest0 : List Nat)
    (hph : phaseFrom ws cN 0 = m0 :: rest0) (hf : m0 ≤ f) :
    (if ((cN : Nat) : Int) ≤ (ws.getD 0 0 : Int) then LoopOut.ok 0 ((cN : Nat) : Int)
     else rrLoop ws g mx f 0 ((cN : Nat) : Int)) = .ok m0 ((cN : Nat) : Int) := by
  obtain ⟨h0, hm0n, hcm, hgap, hrest⟩ := phaseFrom_cons ws cN 0 m0 rest0 hph
  by_cases h00 : m0 = 0
  · subst h00
    rw [if_pos (by exact_mod_cast hcm)]
  · rw [if_neg (by
      have hlt := hgap 0 (Nat.zero_le 0) (by omega)
      exact not_le.mpr (by exact_mod_cast hlt))]
    have hsc := scan_hit ws g mx f 0 m0 ((cN : Nat) : Int) (by omega) hm0n
      (fun i hi1 hi2 => by exact_mod_cast hgap i (by omega) hi2) (by exact_mod_cast hcm)
      (by omega)
    simpa using hsc

end Oxy

namespace Oxy

/-- Fuel that always suffices for one `nextServer` call (§proof: a call
scans at most one full cycle plus one wrap plus one partial cycle). -/
def stdFuel (ws : List Nat) : Nat := 2 * ws.length + 2

theorem listGcd_pos (ws : List Nat) (hne : ws ≠ []) (hpos : ∀ x ∈ ws, 0 < x) :
    0 < listGcd ws := by
  obtain ⟨w, rest, rfl⟩ : ∃ w rest, ws = w :: rest := by
    cases ws with
    | nil => exact absurd rfl hne
    | cons a b => exact ⟨a, b, rfl⟩
  have hd := listGcd_dvd (w :: rest) w (List.mem_cons_self _ _)
  have hw := hpos w (List.mem_cons_self _ _)
  rcases Nat.eq_zero_or_pos (listGcd (w :: rest)) with h | h
  · rw [h] at hd
    have := Nat.eq_zero_of_zero_dvd hd
    omega
  · exact h

theorem getD_mem (ws : List Nat) (i : Nat) (hi : i < ws.length) : ws.getD i 0 ∈ ws := by
  rw [List.getD_eq_getElem ws 0 hi]
  exact List.getElem_mem hi

theorem weight_ge_gcd (ws : List Nat) (hpos : ∀ x ∈ ws, 0 < x) (i : Nat) (hi : i < ws.length) :
    listGcd ws ≤ ws.getD i 0 :=
  Nat.le_of_dvd (hpos _ (getD_mem ws i hi)) (listGcd_dvd ws _ (getD_mem ws i hi))

theorem gcd_dvd_weight (ws : List Nat) (i : Nat) (hi : i < ws.length) :
    listGcd ws ∣ ws.getD i 0 :=
  listGcd_dvd ws _ (getD_mem ws i hi)

theorem gcd_dvd_listMax (ws : List Nat) (hne : ws ≠ []) (hpos : ∀ x ∈ ws, 0 < x) :
    listGcd ws ∣ listMax ws :=
  listGcd_dvd ws _ (listMax_mem ws hne hpos)

theorem listMax_pos (ws : List Nat) (hne : ws ≠ []) (hpos : ∀ x ∈ ws, 0 < x) :
    0 < listMax ws :=
  hpos _ (listMax_mem ws hne hpos)

theorem weight_le_listMax (ws : List Nat) (i : Nat) (hi : i < ws.length) :
    ws.getD i 0 ≤ listMax ws :=
  le_listMax ws _ (getD_mem ws i hi)

theorem K_mul_gcd (ws : List Nat) (hne : ws ≠ []) (hpos : ∀ x ∈ ws, 0 < x) :
    (listMax ws / listGcd ws) * listGcd ws = listMax ws :=
  Nat.div_mul_cancel (gcd_dvd_listMax ws hne hpos)

theorem tmod_last (n : Nat) (hn : 0 < n) :
    (((n - 1 : Nat) : Int) + 1).tmod (n : Int) = 0 := by
  have h : ((n - 1 : Nat) : Int) + 1 = (n : Int) := by omega
  rw [h]
  exact Int.tmod_self

theorem runSel_succ (ws : List Nat) (g mx : Int) (F m : Nat) (i c : Int) :
    runSel ws g mx F (m + 1) (i, c) =
      (match rrLoop ws g mx F i c with
       | .ok sel cw =>
         (match runSel ws g mx F m ((sel : Int), cw) with
          | some (l, st') => some (sel :: l, st')
          | none => none)
       | _ => none) := rfl

theorem runSel_succ_ok (ws : List Nat) (g mx : Int) (F m : Nat) (i c : Int) (sel : Nat) (cw : Int)
    (h : rrLoop ws g mx F i c = .ok sel cw) :
    runSel ws g mx F (m + 1) (i, c) =
      (match runSel ws g mx F m ((sel : Int), cw) with
       | some (l, st') => some (sel :: l, st')
       | none => none) := by
  rw [runSel_succ, h]

end Oxy

namespace Oxy

/-- Core schedule simulation: from a just-selected position `j` in weight
phase `k` (current weight `k·g`), the following calls select exactly the
remainder of phase `k` and then all lower phases, ending at position
`n-1` with weight `g`. -/
theorem runSel_phases (ws : List Nat) (hne : ws ≠ []) (hpos : ∀ x ∈ ws, 0 < x) :
    ∀ (L k j : Nat), 1 ≤ k → k ≤ listMax ws / listGcd ws → j < ws.length →
      (phaseFrom ws (k * listGcd ws) (j + 1) ++ lowerPhases ws (listGcd ws) (k - 1)).length = L →
      runSel ws ((listGcd ws : Nat) : Int) ((listMax ws : Nat) : Int) (stdFuel ws) L
          ((j : Int), ((k * listGcd ws : Nat) : Int)) =
        some (phaseFrom ws (k * listGcd ws) (j + 1) ++ lowerPhases ws (listGcd ws) (k - 1),
          (((ws.length - 1 : Nat) : Int), ((listGcd ws : Nat) : Int))) := by
  have hgpos : 0 < listGcd ws := listGcd_pos ws hne hpos
  have hn : 0 < ws.length := List.length_pos.mpr hne
  intro L
  induction L using Nat.strong_induction_on with
  | _ L ih =>
    intro k j hk1 hkK hj hL
    cases hph : phaseFrom ws (k * listGcd ws) (j + 1) with
    | cons m rest' =>
      obtain ⟨hjm, hmn, hcm, hgap, hrest'⟩ := phaseFrom_cons ws _ _ m rest' hph
      have hcall : rrLoop ws ((listGcd ws : Nat) : Int) ((listMax ws : Nat) : Int) (stdFuel ws)
          ((j : Int)) ((k * listGcd ws : Nat) : Int) = .ok m ((k * listGcd ws : Nat) : Int) :=
        scan_hit ws _ _ (stdFuel ws) j m _ (by omega) hmn
          (fun i hi1 hi2 => by exact_mod_cast hgap i (by omega) hi2)
          (by exact_mod_cast hcm) (by unfold stdFuel; omega)
      rw [hph] at hL
      rw [List.cons_append] at hL ⊢
      rw [List.length_cons] at hL
      obtain ⟨L', rfl⟩ : ∃ L', L = L' + 1 :=
        ⟨(rest' ++ lowerPhases ws (listGcd ws) (k - 1)).length, by omega⟩
      have hL' : (phaseFrom ws (k * listGcd ws) (m + 1) ++
          lowerPhases ws (listGcd ws) (k - 1)).length = L' := by
        rw [← hrest']
        omega
      rw [runSel_succ_ok ws _ _ (stdFuel ws) L' _ _ m _ hcall,
        ih L' (by omega) k m hk1 hkK hmn hL', hrest']
    | nil =>
      have hnohit : ∀ i, j < i → i < ws.length → ws.getD i 0 < k * listGcd ws :=
        fun i hi1 hi2 => phaseFrom_nil ws _ _ hph i (by omega) hi2
      rcases Nat.lt_or_ge k 2 with hk2 | hk2
      · -- k = 1: the phase remainder and all lower phases are empty
        have hk : k = 1 := by omega
        subst hk
        have hjn : j = ws.length - 1 := by
          by_contra hne'
          have hji : j + 1 < ws.length := by omega
          have h1 := hnohit (j + 1) (by omega) hji
          have h2 := weight_ge_gcd ws hpos (j + 1) hji
          omega
        have hL0 : L = 0 := by
          rw [hph] at hL
          simp [lowerPhases] at hL
          omega
        subst hL0
        subst hjn
        rw [one_mul]
        rfl
      · -- k ≥ 2: wrap to the next phase and select its first endpoint
        obtain ⟨k2, rfl⟩ : ∃ k2, k = k2 + 2 := ⟨k - 2, by omega⟩
        cases hph0 : phaseFrom ws ((k2 + 1) * listGcd ws) 0 with
        | nil =>
          exfalso
          obtain ⟨jm, hjm, hjget⟩ : ∃ jm, jm < ws.length ∧ ws.getD jm 0 = listMax ws := by
            have hm := listMax_mem ws hne hpos
            obtain ⟨jm, hjm, hjget⟩ := List.mem_iff_getElem.mp hm
            exact ⟨jm, hjm, by rw [List.getD_eq_getElem ws 0 hjm]; exact hjget⟩
          have h1 := phaseFrom_nil ws _ _ hph0 jm (Nat.zero_le _) hjm
          have h2 : (k2 + 1) * listGcd ws ≤ listMax ws := by
            calc (k2 + 1) * listGcd ws
                ≤ (listMax ws / listGcd ws) * listGcd ws :=
                  Nat.mul_le_mul_right _ (by omega)
              _ = listMax ws := K_mul_gcd ws hne hpos
          omega
        | cons m0 rest0 =>
          obtain ⟨hm00, hm0n, hcm0, hgap0, hrest0⟩ := phaseFrom_cons ws _ _ m0 rest0 hph0
          have hcd : (((k2 + 2) * listGcd ws : Nat) : Int) - ((listGcd ws : Nat) : Int) =
              (((k2 + 1) * listGcd ws : Nat) : Int) := by push_cast; ring
          obtain ⟨F2, hF2a, hF2b⟩ :
              ∃ F2, stdFuel ws - (ws.length - 1 - j) = F2 + 1 ∧ ws.length ≤ F2 :=
            ⟨stdFuel ws - (ws.length - 1 - j) - 1, by unfold stdFuel; omega,
              by unfold stdFuel; omega⟩
          have hcall : rrLoop ws ((listGcd ws : Nat) : Int) ((listMax ws : Nat) : Int)
              (stdFuel ws) ((j : Int)) (((k2 + 2) * listGcd ws : Nat) : Int) =
              .ok m0 (((k2 + 1) * listGcd ws : Nat) : Int) := by
            rw [scan_to_wrap ws _ _ (stdFuel ws) j _ hj
              (fun i hi1 hi2 => by exact_mod_cast hnohit i hi1 hi2)
              (by unfold stdFuel; omega)]
            rw [hF2a]
            rw [rrLoop_step_wrap_pos ws _ _ F2 _ _ (tmod_last ws.length hn)
              (by
                rw [hcd]
                exact not_le.mpr (by exact_mod_cast Nat.mul_pos (Nat.succ_pos k2) hgpos))]
            rw [hcd]
            exact sel_from_zero ws _ _ F2 ((k2 + 1) * listGcd ws) m0 rest0 hph0 (by omega)
          rw [hph] at hL
          rw [List.nil_append] at hL ⊢
          have hk1' : k2 + 2 - 1 = k2 + 1 := rfl
          rw [hk1'] at hL ⊢
          rw [lowerPhases, hph0, List.cons_append] at hL ⊢
          rw [List.length_cons] at hL
          obtain ⟨L', rfl⟩ : ∃ L', L = L' + 1 :=
            ⟨(rest0 ++ lowerPhases ws (listGcd ws) k2).length, by omega⟩
          have hL' : (phaseFrom ws ((k2 + 1) * listGcd ws) (m0 + 1) ++
              lowerPhases ws (listGcd ws) ((k2 + 1) - 1)).length = L' := by
            rw [show (k2 + 1) - 1 = k2 from rfl, ← hrest0]
            omega
          rw [runSel_succ_ok ws _ _ (stdFuel ws) L' _ _ m0 _ hcall,
            ih L' (by omega) (k2 + 1) m0 (by omega) (by omega) hm0n hL',
            show (k2 + 1) - 1 = k2 from rfl, hrest0]

end Oxy

namespace Oxy

theorem runSel_succ_allZero (ws : List Nat) (g mx : Int) (F m : Nat) (i c : Int)
    (h : rrLoop ws g mx F i c = .allZero) :
    runSel ws g mx F (m + 1) (i, c) = none := by
  rw [runSel_succ, h]

theorem runSel_succ_fuelOut (ws : List Nat) (g mx : Int) (F m : Nat) (i c : Int)
    (h : rrLoop ws g mx F i c = .fuelOut) :
    runSel ws g mx F (m + 1) (i, c) = none := by
  rw [runSel_succ, h]

theorem poolRun_succ_ok (F m : Nat) (r r' : RoundRobin) (srv : Server)
    (h : nextServer r F = some (.ok srv, r')) :
    poolRun F (m + 1) r =
      (match poolRun F m r' with
       | some (l, r'') => some (r'.index.toNat :: l, r'')
       | none => none) := by
  rw [poolRun, h]

theorem poolRun_succ_err (F m : Nat) (r r' : RoundRobin) (e : RRError)
    (h : nextServer r F = some (.error e, r')) :
    poolRun F (m + 1) r = none := by
  rw [poolRun, h]

theorem poolRun_succ_none (F m : Nat) (r : RoundRobin)
    (h : nextServer r F = none) :
    poolRun F (m + 1) r = none := by
  rw [poolRun, h]

theorem runSel_append (ws : List Nat) (g mx : Int) (F : Nat) :
    ∀ (a b : Nat) (st : Int × Int),
      runSel ws g mx F (a + b) st =
        (match runSel ws g mx F a st with
         | some (l, st') =>
           (match runSel ws g mx F b st' with
            | some (l2, st'') => some (l ++ l2, st'')
            | none => none)
         | none => none) := by
  intro a
  induction a with
  | zero =>
    intro b st
    rw [Nat.zero_add]
    show runSel ws g mx F b st =
      (match runSel ws g mx F b st with
       | some (l2, st'') => some (([] : List Nat) ++ l2, st'')
       | none => none)
    cases hb : runSel ws g mx F b st with
    | none => rfl
    | some p => rfl
  | succ a iha =>
    intro b st
    obtain ⟨i, c⟩ := st
    have hab : a + 1 + b = (a + b) + 1 := by omega
    rw [hab]
    cases hr : rrLoop ws g mx F i c with
    | fuelOut => rw [runSel_succ_fuelOut ws g mx F _ i c hr, runSel_succ_fuelOut ws g mx F a i c hr]
    | allZero => rw [runSel_succ_allZero ws g mx F _ i c hr, runSel_succ_allZero ws g mx F a i c hr]
    | ok sel cw =>
      rw [runSel_succ_ok ws g mx F _ i c sel cw hr, runSel_succ_ok ws g mx F a i c sel cw hr,
        iha b ((sel : Int), cw)]
      cases hA : runSel ws g mx F a ((sel : Int), cw) with
      | none => rfl
      | some p =>
        obtain ⟨l, st'⟩ := p
        cases hB : runSel ws g mx F b st' with
        | none => simp only [hB]
        | some q => simp only [hB, List.cons_append]

theorem runSel_length (ws : List Nat) (g mx : Int) (F : Nat) :
    ∀ (m : Nat) (st : Int × Int) (l : List Nat) (st' : Int × Int),
      runSel ws g mx F m st = some (l, st') → l.length = m := by
  intro m
  induction m with
  | zero =>
    intro st l st' h
    cases h
    rfl
  | succ m ihm =>
    intro st l st' h
    obtain ⟨i, c⟩ := st
    cases hr : rrLoop ws g mx F i c with
    | fuelOut => rw [runSel_succ_fuelOut ws g mx F m i c hr] at h; cases h
    | allZero => rw [runSel_succ_allZero ws g mx F m i c hr] at h; cases h
    | ok sel cw =>
      rw [runSel_succ_ok ws g mx F m i c sel cw hr] at h
      cases hA : runSel ws g mx F m ((sel : Int), cw) with
      | none => rw [hA] at h; cases h
      | some p =>
        obtain ⟨l0, st0⟩ := p
        rw [hA] at h
        cases h
        simp [ihm _ _ _ hA]

theorem count_flatten_replicate (x : List Nat) (i : Nat) :
    ∀ M, ((List.replicate M x).flatten.count i) = M * x.count i := by
  intro M
  induction M with
  | zero => simp
  | succ M ihM =>
    rw [List.replicate_succ, List.flatten_cons, List.count_append, ihM]
    ring

theorem weightGcd_eq' (ss : List Server) (hne : ss ≠ []) :
    weightGcd ss = ((listGcd (ss.map Server.weight) : Nat) : Int) := by
  obtain ⟨s, rest, rfl⟩ := List.exists_cons_of_ne_nil hne
  exact weightGcd_eq s rest

theorem maxWeight_eq' (ss : List Server) (hne : ss ≠ []) :
    maxWeight ss = ((listMax (ss.map Server.weight) : Nat) : Int) := by
  obtain ⟨s, rest, rfl⟩ := List.exists_cons_of_ne_nil hne
  exact maxWeight_eq s rest

theorem K_pos (ws : List Nat) (hne : ws ≠ []) (hpos : ∀ x ∈ ws, 0 < x) :
    0 < listMax ws / listGcd ws :=
  Nat.div_pos (Nat.le_of_dvd (listMax_pos ws hne hpos) (gcd_dvd_listMax ws hne hpos))
    (listGcd_pos ws hne hpos)

/-- One full period from a wrap-boundary state: the next `P` calls select
exactly the full phase schedule and return to the canonical boundary
state `(n-1, g)`. -/
theorem runSel_period (ws : List Nat) (hne : ws ≠ []) (hpos : ∀ x ∈ ws, 0 < x)
    (i c : Int) (hi : (i + 1).tmod (ws.length : Int) = 0)
    (hc : c - ((listGcd ws : Nat) : Int) ≤ 0) :
    runSel ws ((listGcd ws : Nat) : Int) ((listMax ws : Nat) : Int) (stdFuel ws)
        (lowerPhases ws (listGcd ws) (listMax ws / listGcd ws)).length (i, c) =
      some (lowerPhases ws (listGcd ws) (listMax ws / listGcd ws),
        (((ws.length - 1 : Nat) : Int), ((listGcd ws : Nat) : Int))) := by
  have hgpos : 0 < listGcd ws := listGcd_pos ws hne hpos
  have hn : 0 < ws.length := List.length_pos.mpr hne
  obtain ⟨K1, hK⟩ : ∃ K1, listMax ws / listGcd ws = K1 + 1 :=
    ⟨listMax ws / listGcd ws - 1, by have := K_pos ws hne hpos; omega⟩
  have hK1g : (K1 + 1) * listGcd ws = listMax ws := by
    rw [← hK]
    exact K_mul_gcd ws hne hpos
  rw [hK]
  cases hph0 : phaseFrom ws ((K1 + 1) * listGcd ws) 0 with
  | nil =>
    exfalso
    obtain ⟨jm, hjm, hjget⟩ : ∃ jm, jm < ws.length ∧ ws.getD jm 0 = listMax ws := by
      have hm := listMax_mem ws hne hpos
      obtain ⟨jm, hjm, hjget⟩ := List.mem_iff_getElem.mp hm
      exact ⟨jm, hjm, by rw [List.getD_eq_getElem ws 0 hjm]; exact hjget⟩
    have h1 := phaseFrom_nil ws _ _ hph0 jm (Nat.zero_le _) hjm
    omega
  | cons m0 rest0 =>
    obtain ⟨hm00, hm0n, hcm0, hgap0, hrest0⟩ := phaseFrom_cons ws _ _ m0 rest0 hph0
    obtain ⟨F1, hF1⟩ : ∃ F1, stdFuel ws = F1 + 1 ∧ ws.length ≤ F1 :=
      ⟨2 * ws.length + 1, by unfold stdFuel; omega⟩
    have hcall : rrLoop ws ((listGcd ws : Nat) : Int) ((listMax ws : Nat) : Int)
        (stdFuel ws) i c = .ok m0 (((K1 + 1) * listGcd ws : Nat) : Int) := by
      rw [hF1.1]
      rw [rrLoop_step_wrap_reset ws _ _ F1 _ _ hi hc
        (by
          have hmxp := listMax_pos ws hne hpos
          intro hcontr
          omega)]
      have hmxc : ((listMax ws : Nat) : Int) = (((K1 + 1) * listGcd ws : Nat) : Int) := by
        rw [hK1g]
      rw [hmxc]
      exact sel_from_zero ws _ _ F1 ((K1 + 1) * listGcd ws) m0 rest0 hph0 (by omega)
    rw [lowerPhases, hph0, List.cons_append, List.length_cons]
    rw [runSel_succ_ok ws _ _ (stdFuel ws) _ i c m0 _ hcall]
    have hL' : (phaseFrom ws ((K1 + 1) * listGcd ws) (m0 + 1) ++
        lowerPhases ws (listGcd ws) ((K1 + 1) - 1)).length =
        (rest0 ++ lowerPhases ws (listGcd ws) K1).length := by
      rw [show (K1 + 1) - 1 = K1 from rfl, ← hrest0]
    rw [runSel_phases ws hne hpos _ (K1 + 1) m0 (by omega) (by omega) hm0n hL',
      show (K1 + 1) - 1 = K1 from rfl, hrest0]
  
end Oxy

namespace Oxy

/-- Repeated periods from a wrap-boundary state. -/
theorem runSel_periods (ws : List Nat) (hne : ws ≠ []) (hpos : ∀ x ∈ ws, 0 < x) :
    ∀ (M : Nat) (i c : Int), (i + 1).tmod (ws.length : Int) = 0 →
      c - ((listGcd ws : Nat) : Int) ≤ 0 →
      runSel ws ((listGcd ws : Nat) : Int) ((listMax ws : Nat) : Int) (stdFuel ws)
          ((M + 1) * (lowerPhases ws (listGcd ws) (listMax ws / listGcd ws)).length) (i, c) =
        some ((List.replicate (M + 1)
            (lowerPhases ws (listGcd ws) (listMax ws / listGcd ws))).flatten,
          (((ws.length - 1 : Nat) : Int), ((listGcd ws : Nat) : Int))) := by
  have hn : 0 < ws.length := List.length_pos.mpr hne
  intro M
  induction M with
  | zero =>
    intro i c h1 h2
    rw [Nat.zero_add, one_mul, runSel_period ws hne hpos i c h1 h2]
    simp
  | succ M ihM =>
    intro i c h1 h2
    have hmul : (M + 1 + 1) * (lowerPhases ws (listGcd ws) (listMax ws / listGcd ws)).length =
        (lowerPhases ws (listGcd ws) (listMax ws / listGcd ws)).length +
          (M + 1) * (lowerPhases ws (listGcd ws) (listMax ws / listGcd ws)).length := by ring
    rw [hmul, runSel_append, runSel_period ws hne hpos i c h1 h2]
    show (match runSel ws ((listGcd ws : Nat) : Int) ((listMax ws : Nat) : Int) (stdFuel ws)
            ((M + 1) * (lowerPhases ws (listGcd ws) (listMax ws / listGcd ws)).length)
            (((ws.length - 1 : Nat) : Int), ((listGcd ws : Nat) : Int)) with
          | some (l2, st'') =>
            some (lowerPhases ws (listGcd ws) (listMax ws / listGcd ws) ++ l2, st'')
          | none => none) =
        some ((List.replicate (M + 1 + 1)
            (lowerPhases ws (listGcd ws) (listMax ws / listGcd ws))).flatten,
          (((ws.length - 1 : Nat) : Int), ((listGcd ws : Nat) : Int)))
    rw [ihM (((ws.length - 1 : Nat) : Int)) (((listGcd ws : Nat) : Int))
      (tmod_last ws.length hn) (by omega)]
    simp [List.replicate_succ]

/-- `nextServer` never mutates the server list, so iterated selection on a
pool is iterated `rrLoop` on its weights. -/
theorem poolRun_eq_runSel (ss : List Server) (hne : ss ≠ []) (F : Nat) :
    ∀ (m : Nat) (i c : Int),
      poolRun F m ⟨i, ss, c⟩ =
        (match runSel (ss.map Server.weight) (weightGcd ss) (maxWeight ss) F m (i, c) with
         | some (l, st) => some (l, ⟨st.1, ss, st.2⟩)
         | none => none) := by
  intro m
  induction m with
  | zero => intro i c; rfl
  | succ m ihm =>
    intro i c
    have hlen : ¬ (ss.length = 0) := by simp [List.length_eq_zero, hne]
    cases hr : rrLoop (ss.map Server.weight) (weightGcd ss) (maxWeight ss) F i c with
    | fuelOut =>
      have hns : nextServer ⟨i, ss, c⟩ F = none := by
        simp only [nextServer, hr]
        rw [if_neg (by simpa using hlen)]
      rw [poolRun_succ_none F m _ hns, runSel_succ_fuelOut _ _ _ F m i c hr]
    | allZero =>
      have hns : nextServer ⟨i, ss, c⟩ F =
          some (.error .noAvailableEndpoints, ⟨0, ss, 0⟩) := by
        simp only [nextServer, hr]
        rw [if_neg (by simpa using hlen)]
      rw [poolRun_succ_err F m _ _ _ hns, runSel_succ_allZero _ _ _ F m i c hr]
    | ok sel cw =>
      have hns : nextServer ⟨i, ss, c⟩ F =
          some (.ok (ss.getD sel default), ⟨(sel : Int), ss, cw⟩) := by
        simp only [nextServer, hr]
        rw [if_neg (by simpa using hlen)]
      rw [poolRun_succ_ok F m _ _ _ hns, runSel_succ_ok _ _ _ F m i c sel cw hr,
        ihm ((sel : Int)) cw]
      cases hA : runSel (ss.map Server.weight) (weightGcd ss) (maxWeight ss) F m
          ((sel : Int), cw) with
      | none => simp only [hA]
      | some p => simp only [hA, Int.toNat_natCast]

end Oxy

/-- C2: from the freshly constructed/reset state of a pool whose weights
`w1..wn` are all strictly positive, for every `N ≥ 1` the next
`N × total-weight` selection calls all succeed and endpoint `i` is
selected exactly `N·wᵢ` times — in particular within ±1 of `N·wᵢ` — and
any two endpoints of equal weight receive exactly equal counts (no
relative starvation). -/
theorem c2_weighted_rr_fairness (ss : List Oxy.Server) (N : Nat)
    (hne : ss ≠ []) (hpos : ∀ s ∈ ss, 0 < s.weight) (hN : 1 ≤ N) :
    ∃ sels rend,
      Oxy.poolRun (Oxy.stdFuel (ss.map Oxy.Server.weight))
          (N * (ss.map Oxy.Server.weight).sum) ⟨-1, ss, 0⟩ = some (sels, rend) ∧
      sels.length = N * (ss.map Oxy.Server.weight).sum ∧
      (∀ i, i < ss.length →
        sels.count i = N * (ss.map Oxy.Server.weight).getD i 0) ∧
      (∀ i, i < ss.length →
        N * (ss.map Oxy.Server.weight).getD i 0 - 1 ≤ sels.count i ∧
        sels.count i ≤ N * (ss.map Oxy.Server.weight).getD i 0 + 1) ∧
      (∀ i j, i < ss.length → j < ss.length →
        (ss.map Oxy.Server.weight).getD i 0 = (ss.map Oxy.Server.weight).getD j 0 →
        sels.count i = sels.count j) := by
  set ws := ss.map Oxy.Server.weight with hws
  have hwne : ws ≠ [] := by
    rw [hws]
    simpa using hne
  have hwpos : ∀ x ∈ ws, 0 < x := by
    intro x hx
    rw [hws] at hx
    obtain ⟨s, hs, rfl⟩ := List.mem_map.mp hx
    exact hpos s hs
  have hgpos := Oxy.listGcd_pos ws hwne hwpos
  have hlen : ws.length = ss.length := by rw [hws]; exact List.length_map ss _
  have hn : 0 < ws.length := List.length_pos.mpr hwne
  -- count of each index inside one period
  have hPcount : ∀ i, i < ws.length →
      (Oxy.lowerPhases ws (Oxy.listGcd ws) (Oxy.listMax ws / Oxy.listGcd ws)).count i =
        ws.getD i 0 / Oxy.listGcd ws := by
    intro i hi
    rw [Oxy.lowerPhases_count ws _ hgpos i hi]
    exact Nat.min_eq_right (Nat.div_le_div_right (Oxy.weight_le_listMax ws i hi))
  -- period length times gcd is the total weight
  have hgP : Oxy.listGcd ws *
      (Oxy.lowerPhases ws (Oxy.listGcd ws) (Oxy.listMax ws / Oxy.listGcd ws)).length =
        ws.sum := by
    rw [Oxy.length_eq_sum_count ws.length _ (Oxy.lowerPhases_elems ws _ _), Finset.mul_sum,
      Oxy.sum_eq_sum_getD ws]
    refine Finset.sum_congr rfl ?_
    intro i hi
    rw [hPcount i (Finset.mem_range.mp hi)]
    exact Nat.mul_div_cancel' (Oxy.gcd_dvd_weight ws i (Finset.mem_range.mp hi))
  obtain ⟨M0, hM0⟩ : ∃ M0, N * Oxy.listGcd ws = M0 + 1 :=
    ⟨N * Oxy.listGcd ws - 1, by
      have h11 : 1 * 1 ≤ N * Oxy.listGcd ws := Nat.mul_le_mul hN hgpos
      omega⟩
  have hcount : N * ws.sum = (M0 + 1) *
      (Oxy.lowerPhases ws (Oxy.listGcd ws) (Oxy.listMax ws / Oxy.listGcd ws)).length := by
    rw [← hM0, ← hgP]
    ring
  have hstart1 : ((-1 : Int) + 1).tmod (ws.length : Int) = 0 := by
    rw [show (-1 : Int) + 1 = 0 from by norm_num]
    exact Oxy.tmod_small le_rfl (by exact_mod_cast hn)
  have hstart2 : (0 : Int) - ((Oxy.listGcd ws : Nat) : Int) ≤ 0 := by
    have : (0 : Int) ≤ ((Oxy.listGcd ws : Nat) : Int) := Int.natCast_nonneg _
    omega
  have hrun := Oxy.runSel_periods ws hwne hwpos M0 (-1) 0 hstart1 hstart2
  have hbridge := Oxy.poolRun_eq_runSel ss hne (Oxy.stdFuel ws) (N * ws.sum) (-1) 0
  rw [hcount, Oxy.weightGcd_eq' ss hne, Oxy.maxWeight_eq' ss hne, ← hws, hrun] at hbridge
  -- exact per-index counts in the full selection sequence
  have hex : ∀ i, i < ss.length →
      ((List.replicate (M0 + 1) (Oxy.lowerPhases ws (Oxy.listGcd ws)
        (Oxy.listMax ws / Oxy.listGcd ws))).flatten.count i) = N * ws.getD i 0 := by
    intro i hi
    rw [Oxy.count_flatten_replicate, hPcount i (by omega)]
    calc (M0 + 1) * (ws.getD i 0 / Oxy.listGcd ws)
        = N * (Oxy.listGcd ws * (ws.getD i 0 / Oxy.listGcd ws)) := by rw [← hM0]; ring
      _ = N * ws.getD i 0 := by
          rw [Nat.mul_div_cancel' (Oxy.gcd_dvd_weight ws i (by omega))]
  refine ⟨(List.replicate (M0 + 1) (Oxy.lowerPhases ws (Oxy.listGcd ws)
      (Oxy.listMax ws / Oxy.listGcd ws))).flatten,
    ⟨((ws.length - 1 : Nat) : Int), ss, ((Oxy.listGcd ws : Nat) : Int)⟩, ?_, ?_, ?_, ?_, ?_⟩
  · rw [hcount]
    exact hbridge
  · rw [hcount]
    exact Oxy.runSel_length ws _ _ (Oxy.stdFuel ws) _ ((-1 : Int), (0 : Int)) _ _ hrun
  · exact hex
  · intro i hi
    rw [hex i hi]
    omega
  · intro i j hi hj hw
    rw [hex i hi, hex j hj, hw]

/-- C2 witness: a two-endpoint pool with weights 3 and 1; one total-weight
round of four selections picks endpoint 0 three times and endpoint 1 once. -/
theorem c2_weighted_rr_fairness_witness :
    (let u1 : Oxy.URL := ⟨['h'], ['a'], ['/']⟩
     let u2 : Oxy.URL := ⟨['h'], ['b'], ['/']⟩
     let ss : List Oxy.Server := [⟨u1, 3⟩, ⟨u2, 1⟩]
     ([⟨u1, 3⟩, ⟨u2, 1⟩] : List Oxy.Server) ≠ [] ∧
     (∀ s ∈ ss, 0 < s.weight) ∧ 1 ≤ 1 ∧
     ∃ sels rend,
       Oxy.poolRun (Oxy.stdFuel (ss.map Oxy.Server.weight))
           (1 * (ss.map Oxy.Server.weight).sum) ⟨-1, ss, 0⟩ = some (sels, rend) ∧
       sels.length = 1 * (ss.map Oxy.Server.weight).sum ∧
       (∀ i, i < ss.length →
         sels.count i = 1 * (ss.map Oxy.Server.weight).getD i 0) ∧
       (∀ i, i < ss.length →
         1 * (ss.map Oxy.Server.weight).getD i 0 - 1 ≤ sels.count i ∧
         sels.count i ≤ 1 * (ss.map Oxy.Server.weight).getD i 0 + 1) ∧
       (∀ i j, i < ss.length → j < ss.length →
         (ss.map Oxy.Server.weight).getD i 0 = (ss.map Oxy.Server.weight).getD j 0 →
         sels.count i = sels.count j)) := by
  refine ⟨by decide, by decide, by decide, ?_⟩
  exact c2_weighted_rr_fairness [⟨⟨['h'], ['a'], ['/']⟩, 3⟩, ⟨⟨['h'], ['b'], ['/']⟩, 1⟩] 1
    (by decide) (by decide) (by decide)

/-! ## C5: allow-list containment semantics -/

namespace Mw

/-- Modelled from the spec: the numeric value of an address, most
significant byte first. -/
def ipNum : List Nat → Nat
  | [] => 0
  | b :: bs => b * 256 ^ bs.length + ipNum bs

/-- Modelled from the spec: exact CIDR network containment — `addr` lies
in the network of base address `base` and prefix length `ones` iff both
have the same family width and their numeric values agree on every bit
above the host part, i.e. `addr` lies between the network address and
the last (broadcast) address of the network. -/
def specContains (base : List Nat) (ones : Nat) (addr : List Nat) : Bool :=
  addr.length == base.length &&
    ipNum addr / 2 ^ (8 * base.length - ones) == ipNum base / 2 ^ (8 * base.length - ones)

theorem byteAnd_mask : ∀ k, k < 9 → ∀ a, a < 256 →
    a &&& (255 ^^^ (255 >>> k)) = a / 2 ^ (8 - k) * 2 ^ (8 - k) := by decide

theorem and255 : ∀ a, a < 256 → a &&& 255 = a := by decide

theorem and_eq_255 {a m : Nat} (ha : a < 256) (hm : m < 256) (h : a &&& m = 255) :
    a = 255 ∧ m = 255 := by
  have h1 : a &&& m ≤ a := Nat.and_le_left
  have h2 : a &&& m ≤ m := Nat.and_le_right
  omega

theorem maskBytes_length : ∀ l ones, (maskBytes ones l).length = l := by
  intro l
  induction l with
  | zero => intro ones; rfl
  | succ l ih =>
    intro ones
    by_cases h : ones ≥ 8
    · simp [maskBytes, if_pos h, ih]
    · simp [maskBytes, if_neg h, ih]

theorem maskBytes_lt : ∀ l ones, ∀ x ∈ maskBytes ones l, x < 256 := by
  intro l
  induction l with
  | zero => intro ones x hx; cases hx
  | succ l ih =>
    intro ones x hx
    by_cases h : ones ≥ 8
    · rw [maskBytes, if_pos h] at hx
      rcases List.mem_cons.mp hx with h1 | h1
      · omega
      · exact ih _ x h1
    · rw [maskBytes, if_neg h] at hx
      rcases List.mem_cons.mp hx with h1 | h1
      · have : (255 : Nat) ^^^ (255 >>> ones) < 256 := by
          interval_cases ones <;> decide
        omega
      · exact ih _ x h1

theorem maskedEq_zero : ∀ (xs ys : List Nat), xs.length = ys.length →
    maskedEq (List.zipWith (fun a b => a &&& b) xs (maskBytes 0 xs.length)) ys
      (maskBytes 0 xs.length) = true := by
  intro xs
  induction xs with
  | nil =>
    intro ys h
    have hy : ys = [] := by
      cases ys with
      | nil => rfl
      | cons a b => simp at h
    subst hy
    rfl
  | cons x xs ih =>
    intro ys h
    cases ys with
    | nil => simp at h
    | cons y ys =>
      have hm : maskBytes 0 (x :: xs).length = 0 :: maskBytes 0 xs.length := by
        have h0 : (255 : Nat) ^^^ 255 >>> 0 = 0 := by decide
        rw [List.length_cons, maskBytes, if_neg (by omega), h0]
      rw [hm]
      simp only [List.zipWith_cons_cons, maskedEq]
      rw [ih ys (by simpa using h)]
      simp

theorem ipNum_lt : ∀ (l : List Nat), (∀ x ∈ l, x < 256) → ipNum l < 256 ^ l.length := by
  intro l
  induction l with
  | nil => intro _; simp [ipNum]
  | cons b bs ih =>
    intro h
    have hb : b < 256 := h b (List.mem_cons_self _ _)
    have ht := ih (fun x hx => h x (List.mem_cons_of_mem _ hx))
    simp only [ipNum, List.length_cons]
    have hpow : (256 : Nat) ^ (bs.length + 1) = 256 * 256 ^ bs.length := by ring
    rw [hpow]
    have h1 : b * 256 ^ bs.length ≤ 255 * 256 ^ bs.length :=
      Nat.mul_le_mul_right _ (by omega)
    omega

theorem digit_unique {M r1 r2 c1 c2 : Nat} (h1 : r1 < M) (h2 : r2 < M) :
    r1 + c1 * M = r2 + c2 * M ↔ (c1 = c2 ∧ r1 = r2) := by
  constructor
  · intro h
    have hM : 0 < M := by omega
    have e1 : (r1 + c1 * M) / M = c1 := by
      rw [Nat.add_mul_div_right _ _ hM, Nat.div_eq_of_lt h1]
      omega
    have e2 : (r2 + c2 * M) / M = c2 := by
      rw [Nat.add_mul_div_right _ _ hM, Nat.div_eq_of_lt h2]
      omega
    have hc : c1 = c2 := by rw [← e1, ← e2, h]
    subst hc
    exact ⟨rfl, by omega⟩
  · rintro ⟨rfl, rfl⟩
    rfl

theorem getD_zipWith (f : Nat → Nat → Nat) :
    ∀ (a b : List Nat) (i : Nat), i < a.length → i < b.length →
      (List.zipWith f a b).getD i 0 = f (a.getD i 0) (b.getD i 0) := by
  intro a
  induction a with
  | nil => intro b i h1 _; simp at h1
  | cons x xs ih =>
    intro b i h1 h2
    cases b with
    | nil => simp at h2
    | cons y ys =>
      cases i with
      | zero => rfl
      | succ i =>
        simp only [List.zipWith_cons_cons, List.getD_cons_succ]
        exact ih ys i (by simpa using h1) (by simpa using h2)

theorem take_all_getD (p : Nat → Bool) :
    ∀ (l : List Nat) (k : Nat), ((l.take k).all p = true) ↔
      ∀ i, i < k → i < l.length → p (l.getD i 0) = true := by
  intro l
  induction l with
  | nil => intro k; simp
  | cons x xs ih =>
    intro k
    cases k with
    | zero => simp
    | succ k =>
      simp only [List.take_succ_cons, List.all_cons, Bool.and_eq_true, ih]
      constructor
      · rintro ⟨hx, ht⟩ i hi hil
        cases i with
        | zero => exact hx
        | succ i => exact ht i (by omega) (by simpa using hil)
      · intro h
        refine ⟨h 0 (by omega) (by simp), ?_⟩
        intro i hi hil
        exact h (i + 1) (by omega) (by simpa using hil)

theorem maskBytes_getD_255 : ∀ (l ones i : Nat), i < l →
    (maskBytes ones l).getD i 0 = 255 → 8 * (i + 1) ≤ ones := by
  intro l
  induction l with
  | zero => intro ones i h; omega
  | succ l ih =>
    intro ones i hi h
    by_cases h8 : ones ≥ 8
    · rw [maskBytes, if_pos h8] at h
      cases i with
      | zero => omega
      | succ i =>
        have := ih (ones - 8) i (by omega) (by simpa using h)
        omega
    · rw [maskBytes, if_neg h8] at h
      cases i with
      | zero =>
        simp only [List.getD_cons_zero] at h
        have : ones < 8 := by omega
        interval_cases ones <;> simp_all
      | succ i =>
        have := ih 0 i (by omega) (by simpa using h)
        omega

theorem maskBytes_getD_ff : ∀ (l ones i : Nat), i < l → 8 * (i + 1) ≤ ones →
    (maskBytes ones l).getD i 0 = 255 := by
  intro l
  induction l with
  | zero => intro ones i h; omega
  | succ l ih =>
    intro ones i hi h
    have h8 : ones ≥ 8 := by omega
    rw [maskBytes, if_pos h8]
    cases i with
    | zero => rfl
    | succ i =>
      simp only [List.getD_cons_succ]
      exact ih (ones - 8) i (by omega) (by omega)

theorem CIDRMask_32 (ones : Nat) (h : ones ≤ 32) : CIDRMask ones 32 = maskBytes ones 4 := by
  rw [CIDRMask]
  norm_num
  omega

theorem CIDRMask_128 (ones : Nat) (h : ones ≤ 128) :
    CIDRMask ones 128 = maskBytes ones 16 := by
  rw [CIDRMask]
  norm_num
  omega

theorem To4_none_length4 {ip : List Nat} (h : To4 ip = none) : ip.length ≠ 4 := by
  intro hc
  rw [To4, if_pos hc] at h
  cases h

end Mw

namespace Mw

theorem quot_cons_high {x r n ones : Nat} (_hr : r < 2 ^ (8 * n)) (h8 : 8 ≤ ones)
    (ho : ones ≤ 8 * (n + 1)) :
    (x * 256 ^ n + r) / 2 ^ (8 * (n + 1) - ones) =
      r / 2 ^ (8 * (n + 1) - ones) + x * 2 ^ (ones - 8) := by
  have h256 : (256 : Nat) ^ n = 2 ^ (8 * n) := by
    rw [show (256 : Nat) = 2 ^ 8 from by norm_num, ← pow_mul]
  have he : 8 * n = (ones - 8) + (8 * (n + 1) - ones) := by omega
  rw [h256, he, pow_add, ← Nat.mul_assoc, Nat.add_comm,
    Nat.add_mul_div_right _ _ (by positivity : (0 : Nat) < 2 ^ (8 * (n + 1) - ones))]

theorem quot_cons_high_lt {r n ones : Nat} (hr : r < 2 ^ (8 * n)) (h8 : 8 ≤ ones)
    (ho : ones ≤ 8 * (n + 1)) :
    r / 2 ^ (8 * (n + 1) - ones) < 2 ^ (ones - 8) := by
  rw [Nat.div_lt_iff_lt_mul (by positivity)]
  calc r < 2 ^ (8 * n) := hr
    _ = 2 ^ (ones - 8) * 2 ^ (8 * (n + 1) - ones) := by rw [← pow_add]; congr 1; omega

theorem quot_cons_low {x r n ones : Nat} (hr : r < 2 ^ (8 * n)) (h8 : ones < 8) :
    (x * 256 ^ n + r) / 2 ^ (8 * (n + 1) - ones) = x / 2 ^ (8 - ones) := by
  have h256 : (256 : Nat) ^ n = 2 ^ (8 * n) := by
    rw [show (256 : Nat) = 2 ^ 8 from by norm_num, ← pow_mul]
  have he : 8 * (n + 1) - ones = (8 * n) + (8 - ones) := by omega
  rw [he, pow_add, ← Nat.div_div_eq_div_mul]
  congr 1
  rw [h256, Nat.add_comm, Nat.add_mul_div_right _ _ (by positivity : (0 : Nat) < 2 ^ (8 * n)),
    Nat.div_eq_of_lt hr]
  omega

/-- Core refinement for one network: the bytewise masked comparison of
`IPNet.Contains`, applied to the masked base and a CIDR mask, decides
exactly the spec-level condition that the two addresses agree on the
leading `ones` bits of their numeric values. -/
theorem maskedEq_iff_quot : ∀ (a b : List Nat) (ones : Nat),
    a.length = b.length → (∀ x ∈ a, x < 256) → (∀ x ∈ b, x < 256) →
    ones ≤ 8 * a.length →
    (maskedEq (List.zipWith (fun u v => u &&& v) a (maskBytes ones a.length)) b
        (maskBytes ones a.length) = true ↔
      ipNum a / 2 ^ (8 * a.length - ones) = ipNum b / 2 ^ (8 * a.length - ones)) := by
  intro a
  induction a with
  | nil =>
    intro b ones hl ha hb ho
    have hb0 : b = [] := by
      cases b with
      | nil => rfl
      | cons u v => simp at hl
    subst hb0
    have h0 : ones = 0 := by
      simp only [List.length_nil, Nat.mul_zero, Nat.le_zero] at ho
      exact ho
    subst h0
    decide
  | cons x xs ih =>
    intro b ones hl ha hb ho
    cases b with
    | nil => simp at hl
    | cons y ys =>
      have hx : x < 256 := ha x (List.mem_cons_self _ _)
      have hy : y < 256 := hb y (List.mem_cons_self _ _)
      have hxs : ∀ v ∈ xs, v < 256 := fun v hv => ha v (List.mem_cons_of_mem _ hv)
      have hys : ∀ v ∈ ys, v < 256 := fun v hv => hb v (List.mem_cons_of_mem _ hv)
      have hlen : xs.length = ys.length := by simpa using hl
      have hrlt := ipNum_lt xs hxs
      have hslt := ipNum_lt ys hys
      rw [← hlen] at hslt
      have h256l : (256 : Nat) ^ xs.length = 2 ^ (8 * xs.length) := by
        rw [show (256 : Nat) = 2 ^ 8 from by norm_num, ← pow_mul]
      rw [h256l] at hrlt hslt
      simp only [List.length_cons] at ho ⊢
      by_cases h8 : 8 ≤ ones
      · have hm : maskBytes ones (xs.length + 1) = 255 :: maskBytes (ones - 8) xs.length := by
          simp only [maskBytes, if_pos h8]
        rw [hm]
        simp only [List.zipWith_cons_cons, maskedEq, Bool.and_eq_true, beq_iff_eq]
        rw [and255 x hx, and255 x hx, and255 y hy]
        rw [ih ys (ones - 8) hlen hxs hys (by omega)]
        simp only [ipNum]
        rw [← hlen]
        rw [quot_cons_high hrlt h8 ho, quot_cons_high hslt h8 ho,
          digit_unique (quot_cons_high_lt hrlt h8 ho) (quot_cons_high_lt hslt h8 ho)]
        have hee : 8 * (xs.length + 1) - ones = 8 * xs.length - (ones - 8) := by omega
        rw [hee]
      · have h8' : ones < 8 := by omega
        have hm : maskBytes ones (xs.length + 1) =
            (255 ^^^ (255 >>> ones)) :: maskBytes 0 xs.length := by
          simp only [maskBytes, if_neg h8]
        rw [hm]
        simp only [List.zipWith_cons_cons, maskedEq, Bool.and_eq_true, beq_iff_eq]
        have hX : x &&& (255 ^^^ (255 >>> ones)) < 256 := by
          have hle : x &&& (255 ^^^ (255 >>> ones)) ≤ x := Nat.and_le_left
          omega
        rw [byteAnd_mask ones (by omega) _ hX, byteAnd_mask ones (by omega) x hx,
          byteAnd_mask ones (by omega) y hy,
          Nat.mul_div_cancel _ (by positivity : (0 : Nat) < 2 ^ (8 - ones))]
        have hhead : (x / 2 ^ (8 - ones) * 2 ^ (8 - ones) =
            y / 2 ^ (8 - ones) * 2 ^ (8 - ones)) ↔
            x / 2 ^ (8 - ones) = y / 2 ^ (8 - ones) :=
          ⟨fun h => Nat.eq_of_mul_eq_mul_right (by positivity) h, fun h => by rw [h]⟩
        rw [hhead]
        simp only [maskedEq_zero xs ys hlen, and_true]
        simp only [ipNum]
        rw [← hlen]
        rw [quot_cons_low hrlt h8', quot_cons_low hslt h8']

end Mw

namespace Mw

theorem To4_some_length {ip a4 : List Nat} (h : To4 ip = some a4) : a4.length = 4 := by
  rw [To4] at h
  split at h
  next h4 => cases h; exact h4
  next =>
    split at h
    next hc =>
      cases h
      simp only [Bool.and_eq_true, decide_eq_true_eq] at hc
      simp [List.length_drop, hc.1.1.1]
    next => cases h

theorem To4_some_lt {ip a4 : List Nat} (h : To4 ip = some a4) (hlt : ∀ x ∈ ip, x < 256) :
    ∀ x ∈ a4, x < 256 := by
  rw [To4] at h
  split at h
  next => cases h; exact hlt
  next =>
    split at h
    next => cases h; exact fun x hx => hlt x (List.drop_subset _ _ hx)
    next => cases h

theorem To4_eq_none_iff {ip : List Nat} (h16 : ip.length = 16) :
    To4 ip = none ↔
      ¬ ((∀ i, i < 10 → ip.getD i 0 = 0) ∧ ip.getD 10 0 = 255 ∧ ip.getD 11 0 = 255) := by
  have hall : ((ip.take 10).all (fun x => decide (x = 0)) = true) ↔
      ∀ i, i < 10 → ip.getD i 0 = 0 := by
    rw [take_all_getD]
    constructor
    · intro h i hi
      have h2 := h i hi (by omega)
      simpa using h2
    · intro h i hi _
      simp only [decide_eq_true_eq]
      exact h i hi
  rw [To4, if_neg (by omega)]
  by_cases hc : (∀ i, i < 10 → ip.getD i 0 = 0) ∧ ip.getD 10 0 = 255 ∧ ip.getD 11 0 = 255
  · rw [if_pos (by
      simp only [Bool.and_eq_true, decide_eq_true_eq]
      exact ⟨⟨⟨h16, hall.mpr hc.1⟩, hc.2.1⟩, hc.2.2⟩)]
    exact ⟨fun h => Option.noConfusion h, fun h => absurd hc h⟩
  · rw [if_neg (by
      intro hb
      simp only [Bool.and_eq_true, decide_eq_true_eq] at hb
      exact hc ⟨hall.mp hb.1.1.2, hb.1.2, hb.2⟩)]
    exact ⟨fun _ => hc, fun _ => rfl⟩

theorem To4_mask_none {base : List Nat} (hb16 : base.length = 16)
    (hblt : ∀ x ∈ base, x < 256) (hb4 : To4 base = none) (ones : Nat) :
    To4 (List.zipWith (fun u v => u &&& v) base (maskBytes ones 16)) = none := by
  have hml : (maskBytes ones 16).length = 16 := maskBytes_length 16 ones
  have hnn16 : (List.zipWith (fun u v => u &&& v) base (maskBytes ones 16)).length = 16 := by
    rw [List.length_zipWith, hb16, hml]
    exact min_self 16
  rw [To4_eq_none_iff hnn16]
  rintro ⟨hz, h10, h11⟩
  have hzw : ∀ i, i < 16 →
      (List.zipWith (fun u v => u &&& v) base (maskBytes ones 16)).getD i 0 =
        base.getD i 0 &&& (maskBytes ones 16).getD i 0 := by
    intro i hi
    exact getD_zipWith _ base (maskBytes ones 16) i (by omega) (by omega)
  rw [hzw 11 (by omega)] at h11
  obtain ⟨hb11, hm11⟩ := and_eq_255
    (hblt _ (Oxy.getD_mem base 11 (by omega)))
    (maskBytes_lt 16 ones _ (Oxy.getD_mem (maskBytes ones 16) 11 (by omega)))
    h11
  have hones : 96 ≤ ones := maskBytes_getD_255 16 ones 11 (by omega) hm11
  rw [hzw 10 (by omega), maskBytes_getD_ff 16 ones 10 (by omega) (by omega),
    and255 _ (hblt _ (Oxy.getD_mem base 10 (by omega)))] at h10
  have hzb : ∀ i, i < 10 → base.getD i 0 = 0 := by
    intro i hi
    have := hz i hi
    rw [hzw i (by omega), maskBytes_getD_ff 16 ones i (by omega) (by omega),
      and255 _ (hblt _ (Oxy.getD_mem base i (by omega)))] at this
    exact this
  rw [To4_eq_none_iff hb16] at hb4
  exact hb4 ⟨hzb, h10, hb11⟩

end Mw

namespace Mw

theorem maskedEq_iff_quot' (a b : List Nat) (ones L : Nat) (hL : a.length = L)
    (hl : a.length = b.length) (ha : ∀ x ∈ a, x < 256) (hb : ∀ x ∈ b, x < 256)
    (ho : ones ≤ 8 * L) :
    (maskedEq (List.zipWith (fun u v => u &&& v) a (maskBytes ones L)) b
        (maskBytes ones L) = true ↔
      ipNum a / 2 ^ (8 * L - ones) = ipNum b / 2 ^ (8 * L - ones)) := by
  subst hL
  exact maskedEq_iff_quot a b ones hl ha hb ho

theorem maskIP_44 {base m : List Nat} (hb : base.length = 4) (hm : m.length = 4) :
    maskIP base m = List.zipWith (fun a b => a &&& b) base m := by
  simp [maskIP, hb, hm]

theorem maskIP_1616 {base m : List Nat} (hb : base.length = 16) (hm : m.length = 16) :
    maskIP base m = List.zipWith (fun a b => a &&& b) base m := by
  simp [maskIP, hb, hm]

theorem nnam_v4 {nn m : List Nat} (hnn : nn.length = 4) (hm : m.length = 4) :
    networkNumberAndMask ⟨nn, m⟩ = (nn, m) := by
  have h4 : To4 nn = some nn := by rw [To4, if_pos hnn]
  simp only [networkNumberAndMask, h4]
  rw [if_pos hm]

theorem nnam_v6 {nn m : List Nat} (hnn : nn.length = 16) (h4 : To4 nn = none)
    (hm : m.length = 16) :
    networkNumberAndMask ⟨nn, m⟩ = (nn, m) := by
  simp only [networkNumberAndMask, h4]
  rw [if_neg (by omega), if_neg (by omega), if_pos hm]

end Mw

namespace Mw

/-- IPv4 networks: on the net that `ParseCIDR` builds from a 4-byte base
and a `/ones` mask, the code's `Contains` decides exactly spec-level
containment of the address's 4-byte form. -/
theorem Contains_v4_iff (base : List Nat) (ones : Nat) (addr : List Nat)
    (hb : base.length = 4) (hblt : ∀ x ∈ base, x < 256) (ho : ones ≤ 32)
    (halt : ∀ x ∈ addr, x < 256) :
    (Contains ⟨maskIP base (CIDRMask ones 32), CIDRMask ones 32⟩ addr = true ↔
      ∃ a4, To4 addr = some a4 ∧ specContains base ones a4 = true) := by
  have hml : (maskBytes ones 4).length = 4 := maskBytes_length 4 ones
  have hnnl : (List.zipWith (fun a b => a &&& b) base (maskBytes ones 4)).length = 4 := by
    rw [List.length_zipWith, hb, hml]
    exact min_self 4
  rw [CIDRMask_32 ones ho, maskIP_44 hb hml]
  simp only [Contains, nnam_v4 hnnl hml]
  cases h4 : To4 addr with
  | some a4 =>
    have ha4l : a4.length = 4 := To4_some_length h4
    have ha4lt := To4_some_lt h4 halt
    have hkey : (maskedEq (List.zipWith (fun a b => a &&& b) base (maskBytes ones 4)) a4
        (maskBytes ones 4) = true ↔ specContains base ones a4 = true) := by
      rw [specContains]
      simp only [Bool.and_eq_true, beq_iff_eq, decide_eq_true_eq]
      rw [hb]
      rw [maskedEq_iff_quot' base a4 ones 4 hb (by omega) hblt ha4lt (by omega)]
      constructor
      · intro h
        exact ⟨by omega, h.symm⟩
      · intro h
        exact h.2.symm
    constructor
    · intro h
      simp only [Bool.and_eq_true, decide_eq_true_eq] at h
      exact ⟨a4, rfl, hkey.mp h.2⟩
    · rintro ⟨b4, hb4, hsp⟩
      have hba : b4 = a4 := by
        injection hb4 with h
        exact h.symm
      subst hba
      simp only [Bool.and_eq_true, decide_eq_true_eq]
      exact ⟨by omega, hkey.mpr hsp⟩
  | none =>
    have hne : addr.length ≠ 4 := To4_none_length4 h4
    constructor
    · intro h
      simp only [Bool.and_eq_true, decide_eq_true_eq] at h
      exact absurd (by omega : addr.length = 4) hne
    · rintro ⟨b4, hb4, _⟩
      exact Option.noConfusion hb4

/-- IPv6 networks (base not v4-mapped): the code's `Contains` decides
exactly spec-level containment among 16-byte non-v4-mapped addresses. -/
theorem Contains_v6_iff (base : List Nat) (ones : Nat) (addr : List Nat)
    (hb : base.length = 16) (hblt : ∀ x ∈ base, x < 256) (hb4 : To4 base = none)
    (ho : ones ≤ 128) (halt : ∀ x ∈ addr, x < 256) :
    (Contains ⟨maskIP base (CIDRMask ones 128), CIDRMask ones 128⟩ addr = true ↔
      To4 addr = none ∧ specContains base ones addr = true) := by
  have hml : (maskBytes ones 16).length = 16 := maskBytes_length 16 ones
  have hnnl : (List.zipWith (fun a b => a &&& b) base (maskBytes ones 16)).length = 16 := by
    rw [List.length_zipWith, hb, hml]
    exact min_self 16
  have hmn : To4 (List.zipWith (fun a b => a &&& b) base (maskBytes ones 16)) = none :=
    To4_mask_none hb hblt hb4 ones
  rw [CIDRMask_128 ones ho, maskIP_1616 hb hml]
  simp only [Contains, nnam_v6 hnnl hmn hml]
  cases h4 : To4 addr with
  | some a4 =>
    have ha4l : a4.length = 4 := To4_some_length h4
    constructor
    · intro h
      simp only [Bool.and_eq_true, decide_eq_true_eq] at h
      omega
    · rintro ⟨hc, _⟩
      exact Option.noConfusion hc
  | none =>
    by_cases hal : addr.length = 16
    · have hkey : (maskedEq (List.zipWith (fun a b => a &&& b) base (maskBytes ones 16)) addr
          (maskBytes ones 16) = true ↔ specContains base ones addr = true) := by
        rw [specContains]
        simp only [Bool.and_eq_true, beq_iff_eq, decide_eq_true_eq]
        rw [hb]
        rw [maskedEq_iff_quot' base addr ones 16 hb (by omega) hblt halt (by omega)]
        constructor
        · intro h
          exact ⟨by omega, h.symm⟩
        · intro h
          exact h.2.symm
      constructor
      · intro h
        simp only [Bool.and_eq_true, decide_eq_true_eq] at h
        exact ⟨rfl, hkey.mp h.2⟩
      · rintro ⟨_, hsp⟩
        simp only [Bool.and_eq_true, decide_eq_true_eq]
        exact ⟨by omega, hkey.mpr hsp⟩
    · constructor
      · intro h
        simp only [Bool.and_eq_true, decide_eq_true_eq] at h
        exact absurd (by omega : addr.length = 16) hal
      · rintro ⟨_, hsp⟩
        rw [specContains] at hsp
        simp only [Bool.and_eq_true, beq_iff_eq, decide_eq_true_eq] at hsp
        exact absurd (by omega : addr.length = 16) hal

end Mw

namespace Mw

/-- The allow/deny decision of the handler closure on a parsed address is
exactly existential membership in a configured network. -/
theorem whitelistHandler_pass_iff (wl : List IPNet) (ip : List Nat) :
    (whitelistHandler wl (some ip) = ⟨[], true, false⟩ ↔ ∃ n ∈ wl, Contains n ip = true) ∧
    (¬ (∃ n ∈ wl, Contains n ip = true) →
      whitelistHandler wl (some ip) = ⟨[403], false, false⟩) := by
  cases hf : wl.find? (fun w => Contains w ip) with
  | some w =>
    have hw : Contains w ip = true := by
      have h2 := List.find?_some hf
      simpa using h2
    have hmem := List.mem_of_find?_eq_some hf
    constructor
    · constructor
      · intro _
        exact ⟨w, hmem, hw⟩
      · intro _
        simp [whitelistHandler, hf]
    · intro hn
      exact absurd ⟨w, hmem, hw⟩ hn
  | none =>
    have hnone : ∀ n ∈ wl, ¬ (Contains n ip = true) := by
      intro n hn
      have h2 := List.find?_eq_none.mp hf n hn
      simpa using h2
    constructor
    · constructor
      · intro h
        simp [whitelistHandler, hf] at h
      · rintro ⟨n, hn, hc⟩
        exact absurd hc (hnone n hn)
    · intro _
      simp [whitelistHandler, hf]

end Mw

/-- C5: for requests whose source address parses to an IP, the filter
passes to the next handler iff the IP lies in at least one configured
CIDR network, and responds 403 (without invoking the handler) otherwise;
the per-network test agrees with exact spec-level containment — same
family and equal bits above the host part, for any prefix length up to
the single-host `/32` and `/128` masks — for IPv4 networks (against the
address's 4-byte form) and for IPv6 networks (against non-v4-mapped
16-byte addresses); and concretely, with allow-list `["127.0.0.1/8"]`, a
request from `127.0.0.2` passes while one from `10.0.0.1` gets 403. -/
theorem c5_containment_semantics :
    (∀ (wl : List Mw.IPNet) (ip : List Nat),
      (Mw.whitelistHandler wl (some ip) = ⟨[], true, false⟩ ↔
        ∃ n ∈ wl, Mw.Contains n ip = true) ∧
      (¬ (∃ n ∈ wl, Mw.Contains n ip = true) →
        Mw.whitelistHandler wl (some ip) = ⟨[403], false, false⟩)) ∧
    (∀ (base : List Nat) (ones : Nat) (addr : List Nat),
      base.length = 4 → (∀ x ∈ base, x < 256) → ones ≤ 32 → (∀ x ∈ addr, x < 256) →
      (Mw.Contains ⟨Mw.maskIP base (Mw.CIDRMask ones 32), Mw.CIDRMask ones 32⟩ addr = true ↔
        ∃ a4, Mw.To4 addr = some a4 ∧ Mw.specContains base ones a4 = true)) ∧
    (∀ (base : List Nat) (ones : Nat) (addr : List Nat),
      base.length = 16 → (∀ x ∈ base, x < 256) → Mw.To4 base = none →
      ones ≤ 128 → (∀ x ∈ addr, x < 256) →
      (Mw.Contains ⟨Mw.maskIP base (Mw.CIDRMask ones 128), Mw.CIDRMask ones 128⟩ addr = true ↔
        Mw.To4 addr = none ∧ Mw.specContains base ones addr = true)) ∧
    (Mw.NewIPWhitelister ["127.0.0.1/8".toList] =
        .ok [⟨[127, 0, 0, 0], [255, 0, 0, 0]⟩] ∧
      Mw.ipWhitelisterServe [⟨[127, 0, 0, 0], [255, 0, 0, 0]⟩] "127.0.0.2:2342".toList =
        ⟨[], true, false⟩ ∧
      Mw.ipWhitelisterServe [⟨[127, 0, 0, 0], [255, 0, 0, 0]⟩] "10.0.0.1:2342".toList =
        ⟨[403], false, false⟩ ∧
      Mw.specContains [127, 0, 0, 0] 8 [127, 0, 0, 2] = true ∧
      Mw.specContains [127, 0, 0, 0] 8 [10, 0, 0, 1] = false) := by
  refine ⟨Mw.whitelistHandler_pass_iff, Mw.Contains_v4_iff, Mw.Contains_v6_iff,
    by decide, by decide, by decide, by decide, by decide⟩

/-- C5 witness: the IPv4 refinement clause instantiated at the network
`127.0.0.1/8` and the (v4-in-v6) parsed address `127.0.0.2`, with every
hypothesis discharged by evaluation. -/
theorem c5_containment_semantics_witness :
    Mw.Contains ⟨Mw.maskIP [127, 0, 0, 1] (Mw.CIDRMask 8 32), Mw.CIDRMask 8 32⟩
        (Mw.v4InV6Pfx ++ [127, 0, 0, 2]) = true ↔
      ∃ a4, Mw.To4 (Mw.v4InV6Pfx ++ [127, 0, 0, 2]) = some a4 ∧
        Mw.specContains [127, 0, 0, 1] 8 a4 = true :=
  c5_containment_semantics.2.1 [127, 0, 0, 1] 8 (Mw.v4InV6Pfx ++ [127, 0, 0, 2])
    (by decide) (by decide) (by decide) (by decide)
